import Mathlib

/-!
LSEP frame codec and framed TCP connection

A shallow embedding of `header.go` and `tcp_socket.go`.

* A Go `byte`/`uint8` is a `Nat`; every place where Go's 8-bit arithmetic can wrap carries an
  explicit `% 256`.  A `uint64` is a `Nat` below `2 ^ 64`.
* A Go `[]byte` is a `List Nat`; where the difference between a `nil` slice and a non-`nil`
  one is observed (`ParseFrame`'s second result, `TCPConnectionSocket.buffer`) the slice is an
  `Option (List Nat)` with `none` for `nil`.
* A Go `error` is an `Option` of an enumeration of the messages, `none` for `nil`.
-/

namespace Lsep

/-! ## header.go -/

/-- The struct `Header`: the three fields are `uint8` values. -/
structure Header where
  Version : Nat
  Options : Nat
  FrameHeaderLength : Nat
deriving DecidableEq, Repr

/-- The struct `Frame`. -/
structure Frame where
  HeaderByte : Nat
  Header : Header
  LengthBytes : List Nat
  Length : Nat
deriving DecidableEq, Repr

/-- The constant `HeaderVersion1`. -/
def HeaderVersion1 : Nat := 0

/-- The constant `HeaderOptionRaw`. -/
def HeaderOptionRaw : Nat := 0

/-- The method `(h *Header) Encode() byte`.  The receiver is a pointer and the method
overwrites a zero `FrameHeaderLength` with 1, so the header after the call is returned next
to the byte.  The shifts are shifts of a `byte` (they drop what leaves the low 8 bits) and
`h.FrameHeaderLength-1` is a `uint8` subtraction. -/
def Header.Encode (h : Header) : Header × Nat :=
  let h := if h.FrameHeaderLength = 0 then { h with FrameHeaderLength := 1 } else h
  let raw := (h.Version % 256) &&& 0x7
  let raw := ((raw <<< 2) % 256) ||| ((h.Options % 256) &&& 0x3)
  let raw := ((raw <<< 3) % 256) ||| (((h.FrameHeaderLength + 255) % 256) &&& 0x07)
  (h, raw)

/-- The method `(h *Header) Decode(raw byte)`: it assigns the three fields of the receiver. -/
def Header.Decode (h : Header) (raw : Nat) : Header :=
  { h with
    Version := (raw >>> 5) &&& 0x7
    Options := (raw >>> 3) &&& 0x3
    FrameHeaderLength := ((raw &&& 0x7) + 1) % 256 }

/-- The loop `for integer != 0 { integer >>= 8; bytes++ }` of `calcByteness`; `bytes` is a
`uint8`.  The recursion is on `fuel`, an upper bound of the number of iterations left: the
caller passes `integer` itself, which is enough because `integer >> 8 < integer` for a
non-zero `integer` (`calcBytenessLoop_fuel` below). -/
def calcBytenessLoop : Nat → Nat → Nat → Nat
  | 0, _, bytes => bytes
  | fuel + 1, integer, bytes =>
    if integer ≠ 0 then calcBytenessLoop fuel (integer >>> 8) ((bytes + 1) % 256) else bytes

/-- The function `calcByteness(integer uint64) uint8`. -/
def calcByteness (integer : Nat) : Nat :=
  if integer = 0 then 1 else calcBytenessLoop integer integer 0

/-- The library call `binary.BigEndian.PutUint64(b, v)` on an 8-byte slice. -/
def putUint64 (v : Nat) : List Nat :=
  [(v >>> 56) % 256, (v >>> 48) % 256, (v >>> 40) % 256, (v >>> 32) % 256,
   (v >>> 24) % 256, (v >>> 16) % 256, (v >>> 8) % 256, v % 256]

/-- The library call `binary.BigEndian.Uint64(b)`: the big-endian value of the bytes of `b`
(eight of them at the call site). -/
def uint64BE (b : List Nat) : Nat :=
  b.foldl (fun acc x => acc * 256 + x) 0

/-- The function `CreateFrame`.  `8-calcByteness(dataLength)` is a `uint8` subtraction; the
slice expression `f.LengthBytes[i:]` is `List.drop i` (the index is at most 8, see
`calcByteness_range`, so the slice expression cannot fail). -/
def CreateFrame (ver opts dataLength : Nat) : Frame :=
  let lengthBytes := putUint64 dataLength
  let lengthBytes := lengthBytes.drop ((8 + 256 - calcByteness dataLength) % 256)
  let header : Header :=
    { Version := ver, Options := opts, FrameHeaderLength := calcByteness dataLength }
  let enc := header.Encode
  { HeaderByte := enc.2, Header := enc.1, LengthBytes := lengthBytes, Length := dataLength }

/-- The method `(f *Frame) GetFrame() []byte`; `none` is the `panic` branch.  `copy` returns
the number of bytes copied, here `len(f.LengthBytes)` because `b[1:]` has exactly that
length. -/
def Frame.GetFrame (f : Frame) : Option (List Nat) :=
  if min f.LengthBytes.length f.LengthBytes.length ≠ f.Header.FrameHeaderLength then none
  else some (f.HeaderByte :: f.LengthBytes)

/-- The error values built by `ParseFrame`, one per message. -/
inductive ParseError where
  | insufficientData
  | invalidHeaderVersion
  | invalidOptionsValue
  | missingFrameData (needed : Nat)
deriving DecidableEq, Repr

/-- The three results `(*Frame, []byte, error)` of `ParseFrame`. -/
structure ParseResult where
  frame : Option Frame
  unused : Option (List Nat)
  err : Option ParseError
deriving DecidableEq, Repr

/-- The function `ParseFrame`.  The loop `for len(lenDat) < 8 { lenDat = append([]byte{0},
lenDat...) }` prepends `8 - len(lenDat)` zero bytes; `data[h.FrameHeaderLength+1:]` uses a
`uint8` addition. -/
def ParseFrame (data : List Nat) : ParseResult :=
  if data.length < 2 then ⟨none, none, some .insufficientData⟩
  else
    let h := Header.Decode ⟨0, 0, 0⟩ (data.getD 0 0)
    if h.Version ≠ HeaderVersion1 then ⟨none, none, some .invalidHeaderVersion⟩
    else if h.Options ≠ HeaderOptionRaw then ⟨none, none, some .invalidOptionsValue⟩
    else if h.FrameHeaderLength + 1 > data.length then
      ⟨none, some (List.replicate (h.FrameHeaderLength + 1 - data.length) 0),
        some (.missingFrameData (h.FrameHeaderLength + 1 - data.length))⟩
    else
      let lenDat := (data.drop 1).take h.FrameHeaderLength
      let lenDat := List.replicate (8 - lenDat.length) 0 ++ lenDat
      let length := uint64BE lenDat
      let f := CreateFrame h.Version h.Options length
      ⟨some f, some (data.drop ((h.FrameHeaderLength + 1) % 256)), none⟩

/-! ## tcp_socket.go

The connection is seen from one goroutine, so `syncLock` is left out, and so is the unused
channel `loop`.  The transport (`*net.TCPConn`) is an explicit state: the bytes the peer has
sent and that no stream read has returned yet, and for every stream read or write the answer
the transport gives to it.
-/

/-- The answer of the transport to one stream read or write: how many bytes it is ready to
hand over (or to accept) and whether it reports an error. -/
structure Answer where
  n : Nat
  err : Bool
deriving DecidableEq, Repr

/-- The state of the `*net.TCPConn`.  `stream` holds the incoming bytes not yet read,
`readAnswers i` is the answer to the `i`-th stream read and `reads` counts the stream reads
made; `written`, `writeAnswers` and `writes` are the same for the outgoing direction. -/
structure Conn where
  stream : List Nat
  readAnswers : Nat → Answer
  reads : Nat := 0
  written : List Nat := []
  writeAnswers : Nat → Answer := fun _ => ⟨0, true⟩
  writes : Nat := 0
  closed : Bool := false

/-- The call `connection.Read(b)` on a slice `b` of `size` bytes: the bytes put into `b` (their
number is the first result `n`, at most `size`) and whether the error is non-nil.  A closed
connection and the end of the stream answer with no bytes and an error. -/
def Conn.Read (c : Conn) (size : Nat) : (List Nat × Bool) × Conn :=
  if c.closed then (([], true), c)
  else if c.stream = [] then (([], true), { c with reads := c.reads + 1 })
  else
    let a := c.readAnswers c.reads
    let n := min a.n (min size c.stream.length)
    ((c.stream.take n, a.err), { c with stream := c.stream.drop n, reads := c.reads + 1 })

/-- The call `connection.Write(b)`: the number of bytes accepted and whether the error is
non-nil. -/
def Conn.Write (c : Conn) (b : List Nat) : (Nat × Bool) × Conn :=
  if c.closed then ((0, true), c)
  else
    let a := c.writeAnswers c.writes
    let n := min a.n b.length
    ((n, a.err), { c with written := c.written ++ b.take n, writes := c.writes + 1 })

/-- The call `connection.Close()`. -/
def Conn.Close (c : Conn) : Conn :=
  { c with closed := true }

/-- The error values of `tcp_socket.go`, one per message, with the errors handed on from
`ParseFrame`; `panicked` stands for a run-time panic (nil dereference, slice bounds). -/
inductive SocketError where
  | bufferExceeded (by_ : Int)
  | fatal
  | parse (e : ParseError)
  | invalidOptionsForFrame
  | invalidVersionInHeader
  | frameShortWrite (wanted wrote : Nat)
  | io
  | panicked
deriving DecidableEq, Repr

/-- The struct `TCPConnectionSocket`.  `buffer` is `nil` (`none`) or a slice of `connbuf`; it is
kept by value, because every path of `readExactBytes` copies or drops `buffer` before the next
stream read overwrites `connbuf`.  `connbuf` and `databuf` are scratch arrays without a value
that outlives a call. -/
structure TCPConnectionSocket where
  connection : Conn
  buffer : Option (List Nat) := none

/-- The method `initSocket`: `buffer = nil` and fresh scratch arrays. -/
def TCPConnectionSocket.initSocket (t : TCPConnectionSocket) : TCPConnectionSocket :=
  { t with buffer := none }

/-- The method `clearBuffers`. -/
def TCPConnectionSocket.clearBuffers (t : TCPConnectionSocket) : TCPConnectionSocket :=
  t.initSocket

/-- The built-in `copy(dst[lo:hi], src)`: the first `min (hi - lo) (len src)` bytes of `src`
overwrite `dst` from index `lo` on. -/
def copySlice (dst : List Nat) (lo hi : Nat) (src : List Nat) : List Nat :=
  let k := min (hi - lo) src.length
  dst.take lo ++ src.take k ++ dst.drop (lo + k)

/-- The results `([]byte, error)` of `readExactBytes` and `Read`. -/
abbrev ReadResult := Option (List Nat) × Option SocketError

/-- The loop `for remLen > 0 { ... }` of `readExactBytes`.  `databuf` is the first `size` bytes
of `t.databuf`, `remLen` is an `int`.  The loop has no bound of its own (a stream read of zero
bytes changes nothing), so the recursion is on `fuel`, the number of stream reads allowed:
`none` means that they did not suffice. -/
def readExactBytesLoop (size : Nat) :
    Nat → TCPConnectionSocket → List Nat → Int → Option (ReadResult × TCPConnectionSocket)
  | fuel, t, databuf, remLen =>
    if remLen > 0 then
      match fuel with
      | 0 => none
      | fuel + 1 =>
        let r := t.connection.Read size
        let t := { t with connection := r.2 }
        let n := r.1.1.length
        if n > 0 then
          if r.1.2 then
            some ((none, some .fatal), { t with connection := t.connection.Close })
          else
            let pos := if (n : Int) > remLen then remLen.toNat else n
            let databuf := copySlice databuf (size - remLen).toNat
              ((size - remLen).toNat + pos) (r.1.1.take pos)
            let t := { t with buffer := some (r.1.1.drop pos) }
            readExactBytesLoop size fuel t databuf (remLen - n)
        else readExactBytesLoop size fuel t databuf remLen
    else some ((some (databuf.take size), none), t)

/-- The method `readExactBytes(size int)`; `InternalReadBufferSize` is the package variable of
that name (in KiB).  `databuf` is re-made on every call and only its first `size` bytes are
ever looked at, so it is a list of `size` zero bytes. -/
def TCPConnectionSocket.readExactBytes (InternalReadBufferSize fuel : Nat)
    (t : TCPConnectionSocket) (size : Nat) : Option (ReadResult × TCPConnectionSocket) :=
  if size > InternalReadBufferSize * 1024 then
    some ((none, some (.bufferExceeded ((size : Int) - (InternalReadBufferSize * 1024 : Nat)))), t)
  else
    let databuf := List.replicate size 0
    match t.buffer with
    | some buffer =>
      if buffer.length > 0 then
        if buffer.length < size then
          let databuf := copySlice databuf 0 buffer.length buffer
          readExactBytesLoop size fuel { t with buffer := none } databuf
            ((size : Int) - buffer.length)
        else if buffer.length = size then
          let databuf := copySlice databuf 0 size buffer
          some ((some (databuf.take size), none), { t with buffer := none })
        else
          let databuf := copySlice databuf 0 size (buffer.drop size)
          some ((some (databuf.take size), none), { t with buffer := some (buffer.drop size) })
      else readExactBytesLoop size fuel t databuf size
    | none => readExactBytesLoop size fuel t databuf size

/-- The conversion `int(f.Length)` of a `uint64` to the 64-bit `int`. -/
def toInt64 (n : Nat) : Int :=
  if n % 2 ^ 64 < 2 ^ 63 then ((n % 2 ^ 64 : Nat) : Int) else ((n % 2 ^ 64 : Nat) : Int) - 2 ^ 64

/-- The loop `for remLen > 0 { ... }` of `Read` ("stage two").  It makes progress only when
`readExactBytes` returns bytes, so the recursion is on `rounds`, the number of iterations
allowed; `fuel` is handed to every `readExactBytes`. -/
def readPayloadLoop (InternalReadBufferSize fuel : Nat) :
    Nat → TCPConnectionSocket → List Nat → Int → Option (ReadResult × TCPConnectionSocket)
  | rounds, t, data, remLen =>
    if remLen > 0 then
      match rounds with
      | 0 => none
      | rounds + 1 =>
        let buffSize : Int := InternalReadBufferSize * 1024
        let buffSize := if buffSize > remLen then remLen else buffSize
        match t.readExactBytes InternalReadBufferSize fuel buffSize.toNat with
        | none => none
        | some ((some newDat, none), t) =>
          let data := copySlice data ((data.length : Int) - remLen).toNat
            (((data.length : Int) - remLen).toNat + newDat.length) newDat
          readPayloadLoop InternalReadBufferSize fuel rounds t data (remLen - newDat.length)
        | some ((_, some err), t) =>
          some ((none, some err), { t with connection := t.connection.Close })
        | some ((none, none), t) => some ((none, some .panicked), t)
    else some ((some data, none), t)

/-- The part of `Read` after the header is parsed: from `var data = make([]byte, f.Length)`
to the end.  The allocation is taken to succeed. -/
def readPayload (InternalReadBufferSize fuel : Nat) (t : TCPConnectionSocket) (f : Frame)
    (f_data : List Nat) : Option (ReadResult × TCPConnectionSocket) :=
  let data := List.replicate f.Length 0
  if f_data.length > data.length then some ((none, some .panicked), t)
  else
    let data := copySlice data 0 f_data.length f_data
    if f.Header.Options ≠ HeaderOptionRaw then some ((none, some .invalidOptionsForFrame), t)
    else if f.Header.Version ≠ HeaderVersion1 then
      some ((none, some .invalidVersionInHeader), t)
    else
      let remLen := toInt64 f.Length - f_data.length
      readPayloadLoop InternalReadBufferSize fuel fuel t data remLen

/-- The method `Read`.  `fuel` bounds the stream reads of each `readExactBytes` and the
iterations of stage two; `none` means that it did not suffice. -/
def TCPConnectionSocket.Read (InternalReadBufferSize fuel : Nat) (t : TCPConnectionSocket) :
    Option (ReadResult × TCPConnectionSocket) :=
  let t := t.clearBuffers
  match t.readExactBytes InternalReadBufferSize fuel 2 with
  | none => none
  | some ((_, some err), t) => some ((none, some err), { t with connection := t.connection.Close })
  | some ((none, none), t) => some ((none, some .panicked), t)
  | some ((some frame, none), t) =>
    match ParseFrame frame with
    | ⟨_, none, some err⟩ =>
      some ((none, some (.parse err)), { t with connection := t.connection.Close })
    | ⟨_, some f_data, some _⟩ =>
      match t.readExactBytes InternalReadBufferSize fuel f_data.length with
      | none => none
      | some ((_, some err), t) =>
        some ((none, some err), { t with connection := t.connection.Close })
      | some ((none, none), t) => some ((none, some .panicked), t)
      | some ((some additional_frame, none), t) =>
        let frame := frame ++ additional_frame
        match ParseFrame frame with
        | ⟨_, _, some err⟩ =>
          some ((none, some (.parse err)), { t with connection := t.connection.Close })
        | ⟨some f, some f_data, none⟩ => readPayload InternalReadBufferSize fuel t f f_data
        | ⟨some f, none, none⟩ => readPayload InternalReadBufferSize fuel t f []
        | ⟨none, _, none⟩ => some ((none, some .panicked), t)
    | ⟨some f, some f_data, none⟩ => readPayload InternalReadBufferSize fuel t f f_data
    | ⟨some f, none, none⟩ => readPayload InternalReadBufferSize fuel t f []
    | ⟨none, _, none⟩ => some ((none, some .panicked), t)

/-- The method `Write`. -/
def TCPConnectionSocket.Write (t : TCPConnectionSocket) (data : List Nat) :
    Option SocketError × TCPConnectionSocket :=
  let f := CreateFrame HeaderVersion1 HeaderOptionRaw (data.length % 2 ^ 64)
  match f.GetFrame with
  | none => (some .panicked, t)
  | some fb =>
    let r := t.connection.Write fb
    let t := { t with connection := r.2 }
    if r.1.1 ≠ fb.length then
      (some (.frameShortWrite fb.length r.1.1), { t with connection := t.connection.Close })
    else if r.1.2 then (some .io, { t with connection := t.connection.Close })
    else
      let r := t.connection.Write data
      let t := { t with connection := r.2 }
      if r.1.1 ≠ data.length then
        (some (.frameShortWrite data.length r.1.1), { t with connection := t.connection.Close })
      else if r.1.2 then (some .io, { t with connection := t.connection.Close })
      else (none, t)

/-- The byte stream that a peer produces by writing the payloads one after the other: each
frame header `GetFrame(CreateFrame(0, 0, len p))` followed by `p`. -/
def framesOf : List (List Nat) → List Nat
  | [] => []
  | p :: ps =>
    ((CreateFrame HeaderVersion1 HeaderOptionRaw p.length).GetFrame.getD []) ++ p ++ framesOf ps

/-- A receiving connection for the two payloads `AA BB CC` and `00 01 EE` written back to
back, `InternalReadBufferSize` at its default 1024: the stream holds the two frames and the
transport hands over 1, 2, 1, 3, 2 bytes and then 1 byte at a time (never more than asked
for). -/
def pipelinedSocket : TCPConnectionSocket :=
  { connection :=
      { stream := framesOf [[0xAA, 0xBB, 0xCC], [0x00, 0x01, 0xEE]]
        readAnswers := fun i => ⟨[1, 2, 1, 3, 2].getD i 1, false⟩ } }

/-- The transport delivers: the connection is open, and every stream read reports no error
and is ready to hand over at least one byte (so it returns between 1 and the requested number
of bytes as long as the stream has bytes left). -/
def Conn.Delivers (c : Conn) : Prop :=
  c.closed = false ∧ ∀ i, 1 ≤ (c.readAnswers i).n ∧ (c.readAnswers i).err = false

/-- The invariant that ties the four fields of a `Frame` together: the length field has
`FrameHeaderLength` bytes, between 1 and 8 of them, it is the big-endian form of `Length` with a
non-zero first byte unless `Length` is 0, and `HeaderByte` is what `Encode` gives for
`Header`. -/
def Frame.WellFormed (f : Frame) : Prop :=
  f.LengthBytes.length = f.Header.FrameHeaderLength ∧
  1 ≤ f.Header.FrameHeaderLength ∧ f.Header.FrameHeaderLength ≤ 8 ∧
  (∀ b ∈ f.LengthBytes, b < 256) ∧ uint64BE f.LengthBytes = f.Length ∧
  (f.Length ≠ 0 → f.LengthBytes.headD 0 ≠ 0) ∧
  f.HeaderByte = f.Header.Encode.2

instance (f : Frame) : Decidable f.WellFormed := by
  unfold Frame.WellFormed
  infer_instance

/-- Whether an error is the "Attempted to exceed buffer" error of `readExactBytes`. -/
def SocketError.isBufferExceeded : SocketError → Bool
  | .bufferExceeded _ => true
  | _ => false

/-! ## Header byte -/

theorem and7_eq_mod (x : Nat) : x &&& 0x7 = x % 8 :=
  Nat.and_pow_two_sub_one_eq_mod x 3

theorem and3_eq_mod (x : Nat) : x &&& 0x3 = x % 4 :=
  Nat.and_pow_two_sub_one_eq_mod x 2

theorem pack_small :
    ∀ a < 8, ∀ b < 4, ∀ c < 8,
      ((((a <<< 2) % 256) ||| b) <<< 3) % 256 ||| c = a * 32 + b * 8 + c := by
  decide

theorem pack_small_or :
    ∀ a < 8, ∀ b < 4, ∀ c < 8,
      ((((a <<< 2) % 256) ||| b) <<< 3) % 256 ||| c = (a <<< 5) ||| (b <<< 3) ||| c := by
  decide

/-- The byte computed by `Encode`, in arithmetic form, for arbitrary field values. -/
theorem Header.Encode_byte (h : Header) :
    h.Encode.2 = (h.Version % 8) * 32 + (h.Options % 4) * 8 +
      (((if h.FrameHeaderLength = 0 then 1 else h.FrameHeaderLength) + 255) % 256) % 8 := by
  have key := pack_small (h.Version % 8) (Nat.mod_lt _ (by decide))
    (h.Options % 4) (Nat.mod_lt _ (by decide))
    ((((if h.FrameHeaderLength = 0 then 1 else h.FrameHeaderLength) + 255) % 256) % 8)
    (Nat.mod_lt _ (by decide))
  have hv : h.Version % 256 % 8 = h.Version % 8 := by omega
  have ho : h.Options % 256 % 4 = h.Options % 4 := by omega
  by_cases hw : h.FrameHeaderLength = 0
  · simp only [Header.Encode, hw, if_true, and7_eq_mod, and3_eq_mod, hv, ho] at key ⊢
    exact key
  · simp only [Header.Encode, hw, if_false, and7_eq_mod, and3_eq_mod, hv, ho] at key ⊢
    exact key

/-- The header left behind by `Encode`: only a zero width is touched. -/
theorem Header.Encode_header (h : Header) :
    h.Encode.1 = if h.FrameHeaderLength = 0 then { h with FrameHeaderLength := 1 } else h := by
  simp [Header.Encode]

theorem Header.Decode_fields (h : Header) (raw : Nat) :
    h.Decode raw = ⟨raw / 32 % 8, raw / 8 % 4, raw % 8 + 1⟩ := by
  have h1 : (raw % 8 + 1) % 256 = raw % 8 + 1 := by omega
  simp [Header.Decode, and7_eq_mod, and3_eq_mod, Nat.shiftRight_eq_div_pow, h1]

/-! ## calcByteness -/

/-- The loop counts the base-256 digits of `integer`: if `integer` has exactly `k` of them and
the fuel is at least `integer`, the result is `bytes + k`. -/
theorem calcBytenessLoop_digits :
    ∀ (k fuel integer bytes : Nat), integer < 256 ^ k → (k = 0 ∨ 256 ^ (k - 1) ≤ integer) →
      integer ≤ fuel → bytes + k < 256 →
      calcBytenessLoop fuel integer bytes = bytes + k := by
  intro k
  induction k with
  | zero =>
    intro fuel integer bytes hlt _ _ _
    have h0 : integer = 0 := by simpa using hlt
    subst h0
    cases fuel <;> simp [calcBytenessLoop]
  | succ k ih =>
    intro fuel integer bytes hlt hge hfuel hb
    have hpos : 256 ^ k ≤ integer := by
      rcases hge with h | h
      · omega
      · simpa using h
    have hk : 0 < 256 ^ k := by positivity
    have hne : integer ≠ 0 := by omega
    cases fuel with
    | zero => omega
    | succ fuel =>
      have hdiv : integer >>> 8 = integer / 256 := by simp [Nat.shiftRight_eq_div_pow]
      have hlt2 : integer / 256 < 256 ^ k := by
        rw [Nat.div_lt_iff_lt_mul (by decide)]
        rw [pow_succ] at hlt
        exact hlt
      have hge2 : k = 0 ∨ 256 ^ (k - 1) ≤ integer / 256 := by
        rcases Nat.eq_zero_or_pos k with h | h
        · exact Or.inl h
        · right
          rw [Nat.le_div_iff_mul_le (by decide)]
          have : 256 ^ (k - 1) * 256 = 256 ^ k := by
            rw [← pow_succ]
            congr 1
            omega
          omega
      have hfuel2 : integer / 256 ≤ fuel := by omega
      have hb2 : (bytes + 1) % 256 = bytes + 1 := by omega
      simp only [calcBytenessLoop, hne, ne_eq, not_false_eq_true, if_true, hdiv, hb2]
      rw [ih fuel (integer / 256) (bytes + 1) hlt2 hge2 hfuel2 (by omega)]
      omega

/-- The fuel `integer` handed over by `calcByteness` is never used up: any larger fuel gives the
same result. -/
theorem calcBytenessLoop_fuel (k fuel integer : Nat) (hk : k ≤ 255) (hlt : integer < 256 ^ k)
    (hge : k = 0 ∨ 256 ^ (k - 1) ≤ integer) (hfuel : integer ≤ fuel) :
    calcBytenessLoop fuel integer 0 = calcBytenessLoop integer integer 0 := by
  rw [calcBytenessLoop_digits k fuel integer 0 hlt hge hfuel (by omega),
    calcBytenessLoop_digits k integer integer 0 hlt hge (le_refl _) (by omega)]

/-- The value of `calcByteness` on the `k`-byte numbers, `k` in 1..255. -/
theorem calcByteness_eq (k n : Nat) (hk1 : 1 ≤ k) (hk : k ≤ 255) (hlt : n < 256 ^ k)
    (hge : k = 1 ∨ 256 ^ (k - 1) ≤ n) : calcByteness n = k := by
  unfold calcByteness
  by_cases h0 : n = 0
  · rcases hge with h | h
    · simp [h0, h]
    · have : 0 < 256 ^ (k - 1) := by positivity
      omega
  · rw [if_neg h0]
    have hge2 : k = 0 ∨ 256 ^ (k - 1) ≤ n := by
      rcases hge with h | h
      · right
        subst h
        simp
        omega
      · exact Or.inr h
    rw [calcBytenessLoop_digits k n n 0 hlt hge2 (le_refl _) (by omega)]
    omega

/-- Every `uint64` has a width `k` in 1..8 with `256 ^ (k - 1) ≤ n < 256 ^ k` (or `k = 1`). -/
theorem exists_width (n : Nat) (hn : n < 2 ^ 64) :
    ∃ k, 1 ≤ k ∧ k ≤ 8 ∧ n < 256 ^ k ∧ (k = 1 ∨ 256 ^ (k - 1) ≤ n) := by
  by_cases h1 : n < 256 ^ 1
  · exact ⟨1, by decide, by decide, h1, Or.inl rfl⟩
  by_cases h2 : n < 256 ^ 2
  · exact ⟨2, by decide, by decide, h2, Or.inr (by simpa using Nat.le_of_not_lt h1)⟩
  by_cases h3 : n < 256 ^ 3
  · exact ⟨3, by decide, by decide, h3, Or.inr (by simpa using Nat.le_of_not_lt h2)⟩
  by_cases h4 : n < 256 ^ 4
  · exact ⟨4, by decide, by decide, h4, Or.inr (by simpa using Nat.le_of_not_lt h3)⟩
  by_cases h5 : n < 256 ^ 5
  · exact ⟨5, by decide, by decide, h5, Or.inr (by simpa using Nat.le_of_not_lt h4)⟩
  by_cases h6 : n < 256 ^ 6
  · exact ⟨6, by decide, by decide, h6, Or.inr (by simpa using Nat.le_of_not_lt h5)⟩
  by_cases h7 : n < 256 ^ 7
  · exact ⟨7, by decide, by decide, h7, Or.inr (by simpa using Nat.le_of_not_lt h6)⟩
  · refine ⟨8, by decide, by decide, ?_, Or.inr (by simpa using Nat.le_of_not_lt h7)⟩
    calc n < 2 ^ 64 := hn
      _ = 256 ^ 8 := by norm_num

/-- For a `uint64`, `calcByteness` lies in 1..8 and brackets its argument. -/
theorem calcByteness_range (n : Nat) (hn : n < 2 ^ 64) :
    1 ≤ calcByteness n ∧ calcByteness n ≤ 8 ∧ n < 256 ^ calcByteness n ∧
      (calcByteness n = 1 ∨ 256 ^ (calcByteness n - 1) ≤ n) := by
  obtain ⟨k, hk1, hk8, hlt, hge⟩ := exists_width n hn
  have h := calcByteness_eq k n hk1 (by omega) hlt hge
  rw [h]
  exact ⟨hk1, hk8, hlt, hge⟩

/-- Leastness: a `uint64` below `256 ^ j` has a `calcByteness` of at most `j`. -/
theorem calcByteness_le (n j : Nat) (hn : n < 2 ^ 64) (hj : 1 ≤ j) (hlt : n < 256 ^ j) :
    calcByteness n ≤ j := by
  obtain ⟨_, _, _, hge⟩ := calcByteness_range n hn
  rcases hge with h | h
  · omega
  · have hpow : 256 ^ (calcByteness n - 1) < 256 ^ j := lt_of_le_of_lt h hlt
    have := (Nat.pow_lt_pow_iff_right (by decide : 1 < 256)).mp hpow
    omega

/-! ## Big-endian length field -/

theorem uint64BE_foldl (l : List Nat) (acc : Nat) :
    l.foldl (fun a x => a * 256 + x) acc = acc * 256 ^ l.length + uint64BE l := by
  induction l generalizing acc with
  | nil => simp [uint64BE]
  | cons b l ih =>
    simp only [List.foldl_cons, List.length_cons, uint64BE]
    rw [ih (acc * 256 + b), ih (0 * 256 + b)]
    ring

theorem uint64BE_cons (b : Nat) (l : List Nat) :
    uint64BE (b :: l) = b * 256 ^ l.length + uint64BE l := by
  have h := uint64BE_foldl l (0 * 256 + b)
  simp only [uint64BE, List.foldl_cons] at h ⊢
  rw [h]
  simp [uint64BE]

theorem uint64BE_replicate_zero (k : Nat) (l : List Nat) :
    uint64BE (List.replicate k 0 ++ l) = uint64BE l := by
  induction k with
  | zero => simp
  | succ k ih =>
    rw [List.replicate_succ, List.cons_append, uint64BE_cons, ih]
    simp

theorem uint64BE_lt (l : List Nat) (hb : ∀ b ∈ l, b < 256) : uint64BE l < 256 ^ l.length := by
  induction l with
  | nil => simp [uint64BE]
  | cons b l ih =>
    rw [uint64BE_cons, List.length_cons, pow_succ]
    have h1 : b < 256 := hb b (List.mem_cons_self _ _)
    have h2 := ih (fun x hx => hb x (List.mem_cons_of_mem _ hx))
    have h3 : b * 256 ^ l.length ≤ 255 * 256 ^ l.length := Nat.mul_le_mul_right _ (by omega)
    omega

theorem uint64BE_putUint64 (n : Nat) (hn : n < 2 ^ 64) : uint64BE (putUint64 n) = n := by
  simp only [uint64BE, putUint64, List.foldl_cons, List.foldl_nil, Nat.shiftRight_eq_div_pow]
  norm_num at hn ⊢
  omega

/-- The bytes that `CreateFrame` cuts off the 8-byte form are zero: putting zeros back in front
restores the 8-byte form. -/
theorem putUint64_drop_pad (n k : Nat) (hk1 : 1 ≤ k) (hk8 : k ≤ 8) (hlt : n < 256 ^ k) :
    List.replicate (8 - k) 0 ++ (putUint64 n).drop (8 - k) = putUint64 n := by
  interval_cases k <;>
    simp only [putUint64, Nat.shiftRight_eq_div_pow, List.replicate, List.drop,
      List.cons_append, List.nil_append, List.cons.injEq, and_true, true_and,
      Nat.reduceSub, List.drop_succ_cons, List.drop_zero] <;>
    norm_num at hlt ⊢ <;> omega

theorem putUint64_length (n : Nat) : (putUint64 n).length = 8 := rfl

theorem putUint64_lt (n : Nat) : ∀ b ∈ putUint64 n, b < 256 := by
  intro b hb
  simp only [putUint64, List.mem_cons, List.mem_singleton, List.not_mem_nil, or_false] at hb
  rcases hb with h | h | h | h | h | h | h | h <;> (subst h; exact Nat.mod_lt _ (by decide))

/-! ## CreateFrame, GetFrame, ParseFrame -/

theorem CreateFrame_fields (ver opts n : Nat) (hn : n < 2 ^ 64) :
    CreateFrame ver opts n =
      { HeaderByte := (ver % 8) * 32 + (opts % 4) * 8 + (calcByteness n - 1)
        Header := ⟨ver, opts, calcByteness n⟩
        LengthBytes := (putUint64 n).drop (8 - calcByteness n)
        Length := n } := by
  obtain ⟨h1, h8, _, _⟩ := calcByteness_range n hn
  have hne : calcByteness n ≠ 0 := by omega
  have hsub : (8 + 256 - calcByteness n) % 256 = 8 - calcByteness n := by omega
  have hw : (calcByteness n + 255) % 256 % 8 = calcByteness n - 1 := by omega
  have hb := Header.Encode_byte ⟨ver, opts, calcByteness n⟩
  have hh := Header.Encode_header ⟨ver, opts, calcByteness n⟩
  simp only [hne, if_false, hw] at hb hh
  simp only [CreateFrame, hsub, hb, hh]

theorem GetFrame_CreateFrame (ver opts n : Nat) (hn : n < 2 ^ 64) :
    (CreateFrame ver opts n).GetFrame =
      some (((ver % 8) * 32 + (opts % 4) * 8 + (calcByteness n - 1)) ::
        (putUint64 n).drop (8 - calcByteness n)) := by
  obtain ⟨h1, h8, _, _⟩ := calcByteness_range n hn
  rw [CreateFrame_fields ver opts n hn]
  simp only [Frame.GetFrame, List.length_drop, putUint64_length, Nat.min_self]
  rw [if_neg]
  simp only [ne_eq, Decidable.not_not]
  omega

/-- The shape of a decoded header: a width of 1..8, read off the low three bits. -/
theorem Decode_width (raw v o w : Nat) (h : Header.Decode ⟨0, 0, 0⟩ raw = ⟨v, o, w⟩) :
    v = raw / 32 % 8 ∧ o = raw / 8 % 4 ∧ w = raw % 8 + 1 ∧ 1 ≤ w ∧ w ≤ 8 := by
  rw [Header.Decode_fields] at h
  injection h with hv ho hw
  refine ⟨hv.symm, ho.symm, hw.symm, ?_, ?_⟩ <;> omega

/-- The success branch of `ParseFrame`. -/
theorem ParseFrame_ok (buf : List Nat) (w : Nat) (hlen : 2 ≤ buf.length)
    (hdec : Header.Decode ⟨0, 0, 0⟩ (buf.getD 0 0) = ⟨0, 0, w⟩) (hw : 1 + w ≤ buf.length) :
    ParseFrame buf =
      ⟨some (CreateFrame 0 0 (uint64BE ((buf.drop 1).take w))), some (buf.drop (1 + w)), none⟩ := by
  obtain ⟨_, _, _, hw1, hw8⟩ := Decode_width _ _ _ _ hdec
  have h256 : (w + 1) % 256 = 1 + w := by omega
  have hnlt : ¬ buf.length < 2 := by omega
  have hngt : ¬ w + 1 > buf.length := by omega
  simp only [ParseFrame, hnlt, if_false, hdec, HeaderVersion1, HeaderOptionRaw, ne_eq,
    not_true_eq_false, hngt, uint64BE_replicate_zero, h256]

/-- The need-more branch of `ParseFrame`. -/
theorem ParseFrame_needMore (buf : List Nat) (w : Nat) (hlen : 2 ≤ buf.length)
    (hdec : Header.Decode ⟨0, 0, 0⟩ (buf.getD 0 0) = ⟨0, 0, w⟩) (hw : buf.length < 1 + w) :
    ParseFrame buf =
      ⟨none, some (List.replicate (1 + w - buf.length) 0),
        some (.missingFrameData (1 + w - buf.length))⟩ := by
  have hnlt : ¬ buf.length < 2 := by omega
  have hgt : w + 1 > buf.length := by omega
  have hcomm : w + 1 - buf.length = 1 + w - buf.length := by omega
  simp only [ParseFrame, hnlt, if_false, hdec, HeaderVersion1, HeaderOptionRaw, ne_eq,
    not_true_eq_false, hgt, if_true, hcomm]

/-! ## Claims on the frame codec -/

/-- C1: for every 64-bit length `n` and every byte sequence `s`, `ParseFrame` applied to
`GetFrame(CreateFrame(HeaderVersion1, HeaderOptionRaw, n))` followed by `s` succeeds, returns a
frame whose `Length` is `n` and whose `HeaderByte` is the built frame's, and returns exactly `s`
as the unused bytes; the built frame is header byte plus `calcByteness n` length bytes, and
parsed alone it leaves zero unused bytes. -/
theorem C1_parseFrame_getFrame_roundtrip (n : Nat) (s : List Nat) (hn : n < 2 ^ 64) :
    ∃ fb f, (CreateFrame HeaderVersion1 HeaderOptionRaw n).GetFrame = some fb ∧
      fb.length = 1 + calcByteness n ∧
      ParseFrame (fb ++ s) = ⟨some f, some s, none⟩ ∧
      ParseFrame fb = ⟨some f, some [], none⟩ ∧
      f.Length = n ∧
      f.HeaderByte = (CreateFrame HeaderVersion1 HeaderOptionRaw n).HeaderByte := by
  obtain ⟨h1, h8, hlt, _⟩ := calcByteness_range n hn
  have hlen : ((putUint64 n).drop (8 - calcByteness n)).length = calcByteness n := by
    rw [List.length_drop, putUint64_length]
    omega
  have hdec : Header.Decode ⟨0, 0, 0⟩ (calcByteness n - 1) = ⟨0, 0, calcByteness n⟩ := by
    rw [Header.Decode_fields]
    have a : (calcByteness n - 1) / 32 % 8 = 0 := by omega
    have b : (calcByteness n - 1) / 8 % 4 = 0 := by omega
    have c : (calcByteness n - 1) % 8 + 1 = calcByteness n := by omega
    rw [a, b, c]
  have hval : uint64BE ((putUint64 n).drop (8 - calcByteness n)) = n := by
    rw [← uint64BE_replicate_zero (8 - calcByteness n),
      putUint64_drop_pad n _ h1 h8 hlt, uint64BE_putUint64 n hn]
  have key : ∀ t : List Nat,
      ParseFrame (((calcByteness n - 1) :: (putUint64 n).drop (8 - calcByteness n)) ++ t) =
        ⟨some (CreateFrame 0 0 n), some t, none⟩ := by
    intro t
    have hp := ParseFrame_ok
      (((calcByteness n - 1) :: (putUint64 n).drop (8 - calcByteness n)) ++ t)
      (calcByteness n)
      (by simp only [List.cons_append, List.length_cons, List.length_append, hlen]; omega)
      (by simpa using hdec)
      (by simp only [List.cons_append, List.length_cons, List.length_append, hlen]; omega)
    rw [hp]
    have htake : (List.drop 1 (((calcByteness n - 1) ::
        (putUint64 n).drop (8 - calcByteness n)) ++ t)).take (calcByteness n) =
        (putUint64 n).drop (8 - calcByteness n) := by
      simp only [List.cons_append, List.drop_succ_cons, List.drop_zero]
      rw [List.take_append_of_le_length (by omega), List.take_of_length_le (by omega)]
    have hdrop : List.drop (1 + calcByteness n) (((calcByteness n - 1) ::
        (putUint64 n).drop (8 - calcByteness n)) ++ t) = t := by
      rw [Nat.add_comm 1, List.cons_append, List.drop_succ_cons]
      exact List.drop_left' hlen
    rw [htake, hdrop, hval]
  refine ⟨(calcByteness n - 1) :: (putUint64 n).drop (8 - calcByteness n),
    CreateFrame 0 0 n, ?_, ?_, key s, ?_, ?_, rfl⟩
  · simpa [HeaderVersion1, HeaderOptionRaw] using GetFrame_CreateFrame 0 0 n hn
  · simp only [List.length_cons, hlen]
    omega
  · simpa using key []
  · rw [CreateFrame_fields 0 0 n hn]

/-- Witness of C1 at `n = 17000` with two trailing bytes. -/
theorem C1_parseFrame_getFrame_roundtrip_witness :
    ∃ fb f, (CreateFrame HeaderVersion1 HeaderOptionRaw 17000).GetFrame = some fb ∧
      fb.length = 1 + calcByteness 17000 ∧
      ParseFrame (fb ++ [7, 9]) = ⟨some f, some [7, 9], none⟩ ∧
      ParseFrame fb = ⟨some f, some [], none⟩ ∧
      f.Length = 17000 ∧
      f.HeaderByte = (CreateFrame HeaderVersion1 HeaderOptionRaw 17000).HeaderByte :=
  C1_parseFrame_getFrame_roundtrip 17000 [7, 9] (by norm_num)

theorem two_pow_eight_mul (k : Nat) : 2 ^ (8 * k) = 256 ^ k := by
  rw [pow_mul]
  norm_num

/-- C2: for every `n` in `[0, 2^64-1]`, `calcByteness n` is the least `k` in 1..8 with
`n < 2^(8k)`; it is 1 for `n = 0`, and for `n > 0` the big-endian form on that many bytes has a
non-zero first byte (`2^(8(k-1)) ≤ n`); `calcByteness 255 = 1`, `calcByteness 256 = 2`,
`calcByteness (2^(8k)-1) = k` for `k = 1..8` and `calcByteness (2^(8k)) = k+1` for
`k = 1..7`. -/
theorem C2_calcByteness_least_width (n : Nat) (hn : n < 2 ^ 64) :
    (1 ≤ calcByteness n ∧ calcByteness n ≤ 8 ∧ n < 2 ^ (8 * calcByteness n) ∧
      (∀ k, 1 ≤ k → n < 2 ^ (8 * k) → calcByteness n ≤ k) ∧
      (0 < n → 2 ^ (8 * (calcByteness n - 1)) ≤ n ∧
        n / 2 ^ (8 * (calcByteness n - 1)) % 256 ≠ 0)) ∧
    calcByteness 0 = 1 ∧ calcByteness 255 = 1 ∧ calcByteness 256 = 2 ∧
    (∀ k, 1 ≤ k → k ≤ 8 → calcByteness (2 ^ (8 * k) - 1) = k) ∧
    (∀ k, 1 ≤ k → k ≤ 7 → calcByteness (2 ^ (8 * k)) = k + 1) := by
  obtain ⟨h1, h8, hlt, hge⟩ := calcByteness_range n hn
  refine ⟨⟨h1, h8, ?_, ?_, ?_⟩, by decide, by decide, by decide, ?_, ?_⟩
  · rw [two_pow_eight_mul]
    exact hlt
  · intro k hk hk2
    rw [two_pow_eight_mul] at hk2
    exact calcByteness_le n k hn hk hk2
  · intro hpos
    rw [two_pow_eight_mul]
    have hle : 256 ^ (calcByteness n - 1) ≤ n := by
      rcases hge with h | h
      · rw [h]
        simpa using hpos
      · exact h
    refine ⟨hle, ?_⟩
    have hp : 0 < 256 ^ (calcByteness n - 1) := by positivity
    have hq : 1 ≤ n / 256 ^ (calcByteness n - 1) := (Nat.one_le_div_iff hp).mpr hle
    have hr : n / 256 ^ (calcByteness n - 1) < 256 := by
      rw [Nat.div_lt_iff_lt_mul hp]
      have : 256 * 256 ^ (calcByteness n - 1) = 256 ^ calcByteness n := by
        rw [← pow_succ']
        congr 1
        omega
      omega
    omega
  · intro k hk1 hk8
    interval_cases k <;> decide
  · intro k hk1 hk7
    interval_cases k <;> decide

/-- Witness of C2 at `n = 70000`, a three-byte number. -/
theorem C2_calcByteness_least_width_witness :
    calcByteness 70000 = 3 ∧ 1 ≤ calcByteness 70000 ∧ calcByteness 70000 ≤ 8 ∧
      70000 < 2 ^ (8 * calcByteness 70000) :=
  ⟨by decide, (C2_calcByteness_least_width 70000 (by norm_num)).1.1,
    (C2_calcByteness_least_width 70000 (by norm_num)).1.2.1,
    (C2_calcByteness_least_width 70000 (by norm_num)).1.2.2.1⟩

/-- C3: for every version, options and 64-bit length `n`,
`GetFrame(CreateFrame(version, options, n))` is the header byte
`Encode(version, options, calcByteness n)` followed by the last `calcByteness n` bytes of the
8-byte big-endian form of `n`, so it is `1 + calcByteness n` bytes long; for `(0, 0, 17000)` it
is `[0x01, 0x42, 0x68]`, for `(0, 0, 0)` it is `[0x00, 0x00]`, for `2^(8k)-1` (`k = 1..8`) it
has `k+1` bytes and for `2^(8k)` (`k = 1..7`) it has `k+2` bytes. -/
theorem C3_getFrame_createFrame_layout (ver opts n : Nat) (hn : n < 2 ^ 64) :
    (∃ fb, (CreateFrame ver opts n).GetFrame = some fb ∧
      fb = (Header.Encode ⟨ver, opts, calcByteness n⟩).2 ::
        ((putUint64 n).reverse.take (calcByteness n)).reverse ∧
      fb.length = 1 + calcByteness n) ∧
    (CreateFrame 0 0 17000).GetFrame = some [0x01, 0x42, 0x68] ∧
    (CreateFrame 0 0 0).GetFrame = some [0x00, 0x00] ∧
    (∀ k, 1 ≤ k → k ≤ 8 →
      ((CreateFrame HeaderVersion1 HeaderOptionRaw (2 ^ (8 * k) - 1)).GetFrame.map
        List.length) = some (k + 1)) ∧
    (∀ k, 1 ≤ k → k ≤ 7 →
      ((CreateFrame HeaderVersion1 HeaderOptionRaw (2 ^ (8 * k))).GetFrame.map
        List.length) = some (k + 2)) := by
  obtain ⟨h1, h8, _, _⟩ := calcByteness_range n hn
  refine ⟨?_, by decide, by decide, ?_, ?_⟩
  · have hlast : ((putUint64 n).reverse.take (calcByteness n)).reverse =
        (putUint64 n).drop (8 - calcByteness n) := by
      rw [List.reverse_take, List.reverse_reverse, List.length_reverse, putUint64_length]
    have henc : (Header.Encode ⟨ver, opts, calcByteness n⟩).2 =
        (ver % 8) * 32 + (opts % 4) * 8 + (calcByteness n - 1) := by
      have hb := Header.Encode_byte ⟨ver, opts, calcByteness n⟩
      have hne : calcByteness n ≠ 0 := by omega
      have hw : (calcByteness n + 255) % 256 % 8 = calcByteness n - 1 := by omega
      simp only [hne, if_false, hw] at hb
      exact hb
    refine ⟨_, GetFrame_CreateFrame ver opts n hn, ?_, ?_⟩
    · rw [hlast, henc]
    · rw [List.length_cons, List.length_drop, putUint64_length]
      omega
  · intro k hk1 hk8
    interval_cases k <;> decide
  · intro k hk1 hk7
    interval_cases k <;> decide

/-- Witness of C3 at version 5, options 2 and the two-byte length 17000. -/
theorem C3_getFrame_createFrame_layout_witness :
    ∃ fb, (CreateFrame 5 2 17000).GetFrame = some fb ∧
      fb = (Header.Encode ⟨5, 2, calcByteness 17000⟩).2 ::
        ((putUint64 17000).reverse.take (calcByteness 17000)).reverse ∧
      fb.length = 1 + calcByteness 17000 :=
  (C3_getFrame_createFrame_layout 5 2 17000 (by norm_num)).1

/-- C4: for every header with 8-bit fields version `v`, options `o` and width `w`,
`Header.Encode` returns the byte `(v mod 8)*32 + (o mod 4)*8 + ((w' - 1) mod 8)` with `w' = 1`
if `w = 0` and `w' = w` otherwise; for `v ≤ 7`, `o ≤ 3` and `1 ≤ w ≤ 8` that is
`v<<5 | o<<3 | (w-1)`; a width of 0 encodes like a width of 1; `(0,0,8)` encodes to `0x07`,
`(0xF,0,0)` to `0xE0` and `(0,0xF,0)` to `0x18`. -/
theorem C4_encode_byte (v o w : Nat) :
    (Header.Encode ⟨v, o, w⟩).2 =
      (v % 8) * 32 + (o % 4) * 8 + ((if w = 0 then 1 else w) - 1) % 8 ∧
    (v ≤ 7 → o ≤ 3 → 1 ≤ w → w ≤ 8 →
      (Header.Encode ⟨v, o, w⟩).2 = (v <<< 5) ||| (o <<< 3) ||| (w - 1)) ∧
    (Header.Encode ⟨v, o, 0⟩).2 = (Header.Encode ⟨v, o, 1⟩).2 ∧
    (Header.Encode ⟨v, o, 0⟩).1 = ⟨v, o, 1⟩ ∧
    (Header.Encode ⟨0, 0, 8⟩).2 = 0x07 ∧
    (Header.Encode ⟨0xF, 0, 0⟩).2 = 0xE0 ∧
    (Header.Encode ⟨0, 0xF, 0⟩).2 = 0x18 := by
  have hform : (Header.Encode ⟨v, o, w⟩).2 =
      (v % 8) * 32 + (o % 4) * 8 + ((if w = 0 then 1 else w) - 1) % 8 := by
    rw [Header.Encode_byte]
    by_cases h0 : w = 0
    · simp [h0]
    · have : (w + 255) % 256 % 8 = (w - 1) % 8 := by omega
      simp only [h0, if_false, this]
  refine ⟨hform, ?_, ?_, ?_, by decide, by decide, by decide⟩
  · intro hv7 ho3 hw1 hw8
    rw [hform]
    have h0 : w ≠ 0 := by omega
    have e1 : v % 8 = v := by omega
    have e2 : o % 4 = o := by omega
    have e3 : (w - 1) % 8 = w - 1 := by omega
    simp only [h0, if_false, e1, e2, e3]
    have ha := pack_small v (by omega) o (by omega) (w - 1) (by omega)
    have hb := pack_small_or v (by omega) o (by omega) (w - 1) (by omega)
    rw [← ha, hb]
  · rw [Header.Encode_byte, Header.Encode_byte]
    simp
  · rw [Header.Encode_header]
    simp

/-- Instance of C4 at version 7, options 3, width 8 (the byte `0xFF`). -/
theorem C4_encode_byte_witness :
    (Header.Encode ⟨7, 3, 8⟩).2 = 255 ∧
      (Header.Encode ⟨7, 3, 8⟩).2 = (7 <<< 5) ||| (3 <<< 3) ||| (8 - 1) :=
  ⟨by decide,
    (C4_encode_byte 7 3 8).2.1 (by decide) (by decide) (by decide) (by decide)⟩

/-- C5: for every version `v` in 0..7, options `o` in 0..3 and width `w` in 1..8, decoding the
byte produced by `Header.Encode` for `(v, o, w)` with `Header.Decode` yields exactly
`(v, o, w)` (whatever the receiver held before); on each of the 256 byte values `Decode` yields
a width in 1..8 (and a version in 0..7 and options in 0..3). -/
theorem C5_decode_encode_roundtrip (v o w : Nat) (hv : v ≤ 7) (ho : o ≤ 3) (hw1 : 1 ≤ w)
    (hw8 : w ≤ 8) :
    (∀ h0 : Header, h0.Decode (Header.Encode ⟨v, o, w⟩).2 = ⟨v, o, w⟩) ∧
    (∀ (h0 : Header) (raw : Nat), raw < 256 →
      1 ≤ (h0.Decode raw).FrameHeaderLength ∧ (h0.Decode raw).FrameHeaderLength ≤ 8 ∧
      (h0.Decode raw).Version ≤ 7 ∧ (h0.Decode raw).Options ≤ 3) := by
  constructor
  · intro h0
    rw [Header.Decode_fields, Header.Encode_byte]
    have h0w : w ≠ 0 := by omega
    simp only [h0w, if_false]
    have e1 : (v % 8 * 32 + o % 4 * 8 + (w + 255) % 256 % 8) / 32 % 8 = v := by omega
    have e2 : (v % 8 * 32 + o % 4 * 8 + (w + 255) % 256 % 8) / 8 % 4 = o := by omega
    have e3 : (v % 8 * 32 + o % 4 * 8 + (w + 255) % 256 % 8) % 8 + 1 = w := by omega
    rw [e1, e2, e3]
  · intro h0 raw _
    rw [Header.Decode_fields]
    refine ⟨?_, ?_, ?_, ?_⟩ <;> simp only <;> omega

/-- Witness of C5 at version 7, options 3, width 8. -/
theorem C5_decode_encode_roundtrip_witness :
    Header.Decode ⟨0, 0, 0⟩ (Header.Encode ⟨7, 3, 8⟩).2 = ⟨7, 3, 8⟩ :=
  (C5_decode_encode_roundtrip 7 3 8 (by decide) (by decide) (by decide) (by decide)).1 ⟨0, 0, 0⟩

/-- The canonical width of the value of a length field of 1..8 bytes: never more than the
field's width, and less exactly when the field has at least two bytes and starts with a zero
byte. -/
theorem calcByteness_uint64BE (l : List Nat) (hb : ∀ b ∈ l, b < 256) (hl1 : 1 ≤ l.length)
    (hl8 : l.length ≤ 8) :
    uint64BE l < 2 ^ 64 ∧ calcByteness (uint64BE l) ≤ l.length ∧
      (calcByteness (uint64BE l) < l.length ↔ (2 ≤ l.length ∧ l.headD 0 = 0)) := by
  have hlt := uint64BE_lt l hb
  have h64 : uint64BE l < 2 ^ 64 := by
    have : 256 ^ l.length ≤ 256 ^ 8 := Nat.pow_le_pow_right (by decide) hl8
    have e : (256 : Nat) ^ 8 = 2 ^ 64 := by norm_num
    omega
  have hle := calcByteness_le (uint64BE l) l.length h64 hl1 hlt
  refine ⟨h64, hle, ?_⟩
  cases l with
  | nil => simp at hl1
  | cons b t =>
    have htl := uint64BE_lt t (fun x hx => hb x (List.mem_cons_of_mem _ hx))
    simp only [List.length_cons, List.headD_cons] at hl1 hl8 hle hlt ⊢
    by_cases hb0 : b = 0
    · subst hb0
      have hval : uint64BE (0 :: t) = uint64BE t := by
        rw [uint64BE_cons]
        simp
      rw [hval] at hle hlt ⊢
      by_cases ht : t.length = 0
      · have := (calcByteness_range (uint64BE t) (by rw [← hval]; exact h64)).1
        constructor
        · intro h
          omega
        · intro h
          omega
      · have := calcByteness_le (uint64BE t) t.length (by rw [← hval]; exact h64)
          (by omega) htl
        constructor
        · intro _
          exact ⟨by omega, rfl⟩
        · intro _
          omega
    · have hge : 256 ^ t.length ≤ uint64BE (b :: t) := by
        rw [uint64BE_cons]
        have : 1 * 256 ^ t.length ≤ b * 256 ^ t.length :=
          Nat.mul_le_mul_right _ (by omega)
        omega
      have heq := calcByteness_eq (t.length + 1) (uint64BE (b :: t)) (by omega) (by omega) hlt
        (Or.inr (by simpa using hge))
      rw [heq]
      constructor
      · intro h
        omega
      · intro h
        exact absurd h.2 hb0

/-- C6: for every buffer `buf` (of bytes) with `len(buf) ≥ 2` whose first byte decodes to
version 0, options 0 and width `w` with `len(buf) ≥ 1 + w`, minimal encoding or not,
`ParseFrame` succeeds, the returned frame is `CreateFrame(0, 0, L)` with `L` the big-endian
value of `buf[1 .. 1+w]`, and the unused bytes are exactly `buf[1+w ..]`; the returned frame's
width is `calcByteness L`, at most `w`, and smaller than `w` exactly when the length field is
not minimal (it has at least two bytes and starts with a zero byte). -/
theorem C6_parseFrame_success (buf : List Nat) (w : Nat) (hbytes : ∀ b ∈ buf, b < 256)
    (hlen : 2 ≤ buf.length) (hdec : Header.Decode ⟨0, 0, 0⟩ (buf.getD 0 0) = ⟨0, 0, w⟩)
    (hw : 1 + w ≤ buf.length) :
    ParseFrame buf =
      ⟨some (CreateFrame 0 0 (uint64BE ((buf.drop 1).take w))), some (buf.drop (1 + w)), none⟩ ∧
    (CreateFrame 0 0 (uint64BE ((buf.drop 1).take w))).Length = uint64BE ((buf.drop 1).take w) ∧
    (CreateFrame 0 0 (uint64BE ((buf.drop 1).take w))).Header.FrameHeaderLength =
      calcByteness (uint64BE ((buf.drop 1).take w)) ∧
    calcByteness (uint64BE ((buf.drop 1).take w)) ≤ w ∧
    (calcByteness (uint64BE ((buf.drop 1).take w)) < w ↔ (2 ≤ w ∧ buf.getD 1 0 = 0)) := by
  obtain ⟨_, _, _, hw1, hw8⟩ := Decode_width _ _ _ _ hdec
  have hl : ((buf.drop 1).take w).length = w := by
    rw [List.length_take, List.length_drop]
    omega
  have hmem : ∀ b ∈ (buf.drop 1).take w, b < 256 := fun b hb =>
    hbytes b (List.mem_of_mem_drop (List.mem_of_mem_take hb))
  obtain ⟨h64, hle, hiff⟩ := calcByteness_uint64BE ((buf.drop 1).take w) hmem
    (by omega) (by omega)
  have hhead : ((buf.drop 1).take w).headD 0 = buf.getD 1 0 := by
    match buf, hlen with
    | b0 :: b1 :: rest, _ =>
      obtain ⟨w', rfl⟩ : ∃ w', w = w' + 1 := ⟨w - 1, by omega⟩
      simp
  rw [hl, hhead] at hiff
  rw [hl] at hle
  refine ⟨ParseFrame_ok buf w hlen hdec hw, ?_, ?_, hle, hiff⟩
  · rw [CreateFrame_fields 0 0 _ h64]
  · rw [CreateFrame_fields 0 0 _ h64]

/-- Witness of C6: a width-3 length field `00 01 02` (a non-minimal encoding of 258) followed
by two payload bytes. -/
theorem C6_parseFrame_success_witness :
    ParseFrame [0x02, 0, 1, 2, 0xAA, 0xBB] =
      ⟨some (CreateFrame 0 0 (uint64BE ((List.drop 1 [0x02, 0, 1, 2, 0xAA, 0xBB]).take 3))),
        some (List.drop (1 + 3) [0x02, 0, 1, 2, 0xAA, 0xBB]), none⟩ ∧
    (calcByteness (uint64BE ((List.drop 1 [0x02, 0, 1, 2, 0xAA, 0xBB]).take 3)) < 3 ↔
      (2 ≤ 3 ∧ List.getD [0x02, 0, 1, 2, 0xAA, 0xBB] 1 0 = 0)) :=
  have h := C6_parseFrame_success [0x02, 0, 1, 2, 0xAA, 0xBB] 3 (by decide) (by decide)
    (by decide) (by decide)
  ⟨h.1, h.2.2.2.2⟩

/-- C7: for every buffer `buf`, `ParseFrame` returns a hard failure (no frame, a `nil` second
result, an error) if and only if `len(buf) < 2`, or the version bits of `buf[0]` are not 0, or
its options bits are not 0; version and options are rejected before the width is looked at, so
with at least 2 bytes a bad version gives "Invalid Header Version" and a bad options value
"Invalid Options Value" whatever the declared width (e.g. `[0x27, 0]`: version 1, width 8,
seven bytes short). -/
theorem C7_parseFrame_hard_failure (buf : List Nat) :
    (((ParseFrame buf).frame = none ∧ (ParseFrame buf).unused = none ∧
        (ParseFrame buf).err ≠ none) ↔
      (buf.length < 2 ∨ buf.getD 0 0 / 32 % 8 ≠ 0 ∨ buf.getD 0 0 / 8 % 4 ≠ 0)) ∧
    (2 ≤ buf.length → buf.getD 0 0 / 32 % 8 ≠ 0 →
      ParseFrame buf = ⟨none, none, some .invalidHeaderVersion⟩) ∧
    (2 ≤ buf.length → buf.getD 0 0 / 32 % 8 = 0 → buf.getD 0 0 / 8 % 4 ≠ 0 →
      ParseFrame buf = ⟨none, none, some .invalidOptionsValue⟩) ∧
    (buf.length < 2 → ParseFrame buf = ⟨none, none, some .insufficientData⟩) ∧
    ParseFrame [0x27, 0] = ⟨none, none, some .invalidHeaderVersion⟩ ∧
    ParseFrame [0x0F, 0] = ⟨none, none, some .invalidOptionsValue⟩ := by
  have hshort : buf.length < 2 → ParseFrame buf = ⟨none, none, some .insufficientData⟩ := by
    intro h
    simp [ParseFrame, h]
  have hver : 2 ≤ buf.length → buf.getD 0 0 / 32 % 8 ≠ 0 →
      ParseFrame buf = ⟨none, none, some .invalidHeaderVersion⟩ := by
    intro h2 hv
    have hnlt : ¬ buf.length < 2 := by omega
    simp only [ParseFrame, hnlt, if_false, Header.Decode_fields, HeaderVersion1, ne_eq, hv,
      not_false_eq_true, if_true]
  have hopt : 2 ≤ buf.length → buf.getD 0 0 / 32 % 8 = 0 → buf.getD 0 0 / 8 % 4 ≠ 0 →
      ParseFrame buf = ⟨none, none, some .invalidOptionsValue⟩ := by
    intro h2 hv ho
    have hnlt : ¬ buf.length < 2 := by omega
    simp only [ParseFrame, hnlt, if_false, Header.Decode_fields, HeaderVersion1,
      HeaderOptionRaw, ne_eq, hv, not_true_eq_false, ho, not_false_eq_true, if_true]
  refine ⟨?_, hver, hopt, hshort, by decide, by decide⟩
  by_cases h2 : buf.length < 2
  · rw [hshort h2]
    exact ⟨fun _ => Or.inl h2, fun _ => ⟨rfl, rfl, by simp⟩⟩
  by_cases hv : buf.getD 0 0 / 32 % 8 = 0
  swap
  · rw [hver (by omega) hv]
    exact ⟨fun _ => Or.inr (Or.inl hv), fun _ => ⟨rfl, rfl, by simp⟩⟩
  by_cases ho : buf.getD 0 0 / 8 % 4 = 0
  swap
  · rw [hopt (by omega) hv ho]
    exact ⟨fun _ => Or.inr (Or.inr ho), fun _ => ⟨rfl, rfl, by simp⟩⟩
  have hdec : Header.Decode ⟨0, 0, 0⟩ (buf.getD 0 0) = ⟨0, 0, buf.getD 0 0 % 8 + 1⟩ := by
    rw [Header.Decode_fields, hv, ho]
  have hno : ¬ (buf.length < 2 ∨ buf.getD 0 0 / 32 % 8 ≠ 0 ∨ buf.getD 0 0 / 8 % 4 ≠ 0) := by
    rintro (h | h | h)
    · exact h2 h
    · exact h hv
    · exact h ho
  by_cases hw : buf.length < 1 + (buf.getD 0 0 % 8 + 1)
  · rw [ParseFrame_needMore buf _ (by omega) hdec hw]
    exact ⟨fun h => absurd h.2.1 (by simp), fun h => absurd h hno⟩
  · rw [ParseFrame_ok buf _ (by omega) hdec (by omega)]
    exact ⟨fun h => absurd h.1 (by simp), fun h => absurd h hno⟩

/-- C8: for every buffer `buf` with `len(buf) ≥ 2` whose first byte decodes to version 0,
options 0 and width `w` with `len(buf) < 1 + w`, `ParseFrame` returns no frame, an error, and a
non-nil byte slice of exactly `1 + w - len(buf)` bytes, a number between 1 and 7. -/
theorem C8_parseFrame_need_more (buf : List Nat) (w : Nat) (hlen : 2 ≤ buf.length)
    (hdec : Header.Decode ⟨0, 0, 0⟩ (buf.getD 0 0) = ⟨0, 0, w⟩) (hshort : buf.length < 1 + w) :
    (ParseFrame buf).frame = none ∧
    (ParseFrame buf).err = some (.missingFrameData (1 + w - buf.length)) ∧
    (∃ k, (ParseFrame buf).unused = some k ∧ k.length = 1 + w - buf.length ∧
      1 ≤ k.length ∧ k.length ≤ 7) := by
  obtain ⟨_, _, _, hw1, hw8⟩ := Decode_width _ _ _ _ hdec
  rw [ParseFrame_needMore buf w hlen hdec hshort]
  refine ⟨rfl, rfl, _, rfl, ?_, ?_, ?_⟩
  · simp
  · rw [List.length_replicate]
    omega
  · rw [List.length_replicate]
    omega

/-- Witness of C8: a header declaring width 8 with two bytes at hand, six bytes short. -/
theorem C8_parseFrame_need_more_witness :
    (ParseFrame [0x07, 0x01]).frame = none ∧
    (ParseFrame [0x07, 0x01]).err = some (.missingFrameData (1 + 8 - 2)) ∧
    (∃ k, (ParseFrame [0x07, 0x01]).unused = some k ∧ k.length = 1 + 8 - 2 ∧
      1 ≤ k.length ∧ k.length ≤ 7) :=
  C8_parseFrame_need_more [0x07, 0x01] 8 (by decide) (by decide) (by decide)

/-- C9, as stated, fails: the first byte alone of the frame header of the length 256 (the frame
header is `01 01 00`) makes `ParseFrame` return the hard failure "Insufficient data" with a
`nil` second result, not a need-more signal. -/
theorem C9_first_byte_is_hard_failure :
    (CreateFrame 0 0 256).GetFrame = some [0x01, 0x01, 0x00] ∧
    ParseFrame (List.take 1 [0x01, 0x01, 0x00]) = ⟨none, none, some .insufficientData⟩ ∧
    ¬ ∃ k, (ParseFrame (List.take 1 [0x01, 0x01, 0x00])).unused = some k ∧
      k.length = calcByteness 256 := by
  decide

/-- C9, amended: for every length `n ≥ 256` the length field has at least two bytes; feeding
`ParseFrame` the first `j` bytes of `GetFrame(CreateFrame(0, 0, n))` with
`2 ≤ j ≤ calcByteness n` yields the need-more signal carrying `1 + calcByteness n - j`, the
number of header bytes still missing, never a hard failure; the first byte alone is rejected
as "Insufficient data" before the header is decoded. -/
theorem C9_partial_header_need_more (n : Nat) (hn : n < 2 ^ 64) (h256 : 256 ≤ n) :
    2 ≤ calcByteness n ∧
    ∃ fb, (CreateFrame 0 0 n).GetFrame = some fb ∧
      (∀ j, 2 ≤ j → j ≤ calcByteness n →
        ParseFrame (fb.take j) =
          ⟨none, some (List.replicate (1 + calcByteness n - j) 0),
            some (.missingFrameData (1 + calcByteness n - j))⟩ ∧
        1 ≤ 1 + calcByteness n - j) ∧
      ParseFrame (fb.take 1) = ⟨none, none, some .insufficientData⟩ := by
  obtain ⟨h1, h8, hlt, _⟩ := calcByteness_range n hn
  have hlen : ((putUint64 n).drop (8 - calcByteness n)).length = calcByteness n := by
    rw [List.length_drop, putUint64_length]
    omega
  have h2 : 2 ≤ calcByteness n := by
    by_contra hc
    have h1' : calcByteness n = 1 := by omega
    rw [h1'] at hlt
    omega
  refine ⟨h2, _, GetFrame_CreateFrame 0 0 n hn, ?_, ?_⟩
  · intro j hj2 hj
    refine ⟨?_, by omega⟩
    obtain ⟨j', rfl⟩ : ∃ j', j = j' + 1 := ⟨j - 1, by omega⟩
    have htl : (List.take (j' + 1) ((0 % 8 * 32 + 0 % 4 * 8 + (calcByteness n - 1)) ::
        (putUint64 n).drop (8 - calcByteness n))).length = j' + 1 := by
      rw [List.length_take, List.length_cons, hlen]
      omega
    have hdec : Header.Decode ⟨0, 0, 0⟩ (calcByteness n - 1) = ⟨0, 0, calcByteness n⟩ := by
      rw [Header.Decode_fields]
      have a : (calcByteness n - 1) / 32 % 8 = 0 := by omega
      have b : (calcByteness n - 1) / 8 % 4 = 0 := by omega
      have c : (calcByteness n - 1) % 8 + 1 = calcByteness n := by omega
      rw [a, b, c]
    have hp := ParseFrame_needMore
      (List.take (j' + 1) ((0 % 8 * 32 + 0 % 4 * 8 + (calcByteness n - 1)) ::
        (putUint64 n).drop (8 - calcByteness n))) (calcByteness n)
      (by rw [htl]; omega) (by simpa using hdec) (by rw [htl]; omega)
    rw [htl] at hp
    exact hp
  · simp [ParseFrame]

/-- Witness of the amended C9 at `n = 70000` (three length bytes). -/
theorem C9_partial_header_need_more_witness :
    2 ≤ calcByteness 70000 ∧
    ∃ fb, (CreateFrame 0 0 70000).GetFrame = some fb ∧
      (∀ j, 2 ≤ j → j ≤ calcByteness 70000 →
        ParseFrame (fb.take j) =
          ⟨none, some (List.replicate (1 + calcByteness 70000 - j) 0),
            some (.missingFrameData (1 + calcByteness 70000 - j))⟩ ∧
        1 ≤ 1 + calcByteness 70000 - j) ∧
      ParseFrame (fb.take 1) = ⟨none, none, some .insufficientData⟩ :=
  C9_partial_header_need_more 70000 (by norm_num) (by decide)

/-! ## Claims on the framed connection -/

/-- C10 does not hold of the code.  Two payloads `AA BB CC` and `00 01 EE` are written back to
back and every stream read returns between 1 and 3 bytes, never more than requested.  The first
`Read` returns `AA BB CC`, and its last stream read has pulled the first two bytes `00 03` of
the second frame into the leftover buffer; the second `Read` starts with `clearBuffers`, which
drops them, takes the payload bytes `00 01` for a frame header and returns `EE` instead of
`00 01 EE`. -/
theorem C10_pipelined_frames_lose_bytes :
    pipelinedSocket.connection.stream = [0x00, 0x03, 0xAA, 0xBB, 0xCC, 0x00, 0x03, 0x00, 0x01, 0xEE] ∧
    (∀ i, 1 ≤ (pipelinedSocket.connection.readAnswers i).n ∧
      (pipelinedSocket.connection.readAnswers i).n ≤ 3 ∧
      (pipelinedSocket.connection.readAnswers i).err = false) ∧
    (pipelinedSocket.Read 1024 8).map (fun r => (r.1, r.2.buffer, r.2.connection.stream)) =
      some ((some [0xAA, 0xBB, 0xCC], none), some [0x00, 0x03], [0x00, 0x01, 0xEE]) ∧
    ((pipelinedSocket.Read 1024 8).bind (fun r => r.2.Read 1024 8)).map
        (fun r => (r.1, r.2.buffer, r.2.connection.stream, r.2.connection.closed)) =
      some ((some [0xEE], none), some [], [], false) ∧
    ((pipelinedSocket.Read 1024 8).bind (fun r => r.2.Read 1024 8)).map (fun r => r.1) ≠
      some (some [0x00, 0x01, 0xEE], none) := by
  refine ⟨by decide, ?_, by decide!, by decide!, by decide!⟩
  intro i
  match i with
  | 0 | 1 | 2 | 3 | 4 => decide
  | k + 5 => simp [pipelinedSocket]

/-! ## readExactBytes -/

theorem readExactBytesLoop_done (size fuel : Nat) (t : TCPConnectionSocket) (databuf : List Nat)
    (z : Int) (hz : z ≤ 0) :
    readExactBytesLoop size fuel t databuf z = some ((some (databuf.take size), none), t) := by
  unfold readExactBytesLoop
  have : ¬ z > 0 := by omega
  simp [this]

theorem Conn.Read_delivers (c : Conn) (size : Nat) (h : c.Delivers) (hs : c.stream ≠ []) :
    c.Read size =
      ((c.stream.take (min (c.readAnswers c.reads).n (min size c.stream.length)), false),
        { c with
          stream := c.stream.drop (min (c.readAnswers c.reads).n (min size c.stream.length))
          reads := c.reads + 1 }) := by
  simp [Conn.Read, h.1, hs, (h.2 _).2]

/-- One iteration of the loop of `readExactBytes` on a transport that delivers: the stream read
returns `n` bytes, `min n r` of them go to `databuf` and the rest to `buffer`. -/
theorem readExactBytesLoop_step (size fuel r n : Nat) (c : Conn) (b : Option (List Nat))
    (databuf : List Nat) (hdel : c.Delivers) (hr : 0 < r) (hstream : r ≤ c.stream.length)
    (hsize : r ≤ size) (hn : n = min (c.readAnswers c.reads).n (min size c.stream.length)) :
    readExactBytesLoop size (fuel + 1) ⟨c, b⟩ databuf (r : Int) =
      readExactBytesLoop size fuel
        ⟨{ c with stream := c.stream.drop n, reads := c.reads + 1 },
          some ((c.stream.take n).drop (min n r))⟩
        (copySlice databuf (size - r) (size - r + min n r) ((c.stream.take n).take (min n r)))
        ((r : Int) - (n : Nat)) := by
  have hne : c.stream ≠ [] := by
    intro h
    rw [h] at hstream
    simp at hstream
    omega
  have h1 := (hdel.2 c.reads).1
  rw [readExactBytesLoop]
  have hpos : (r : Int) > 0 := by omega
  simp only [hpos, if_true, Conn.Read_delivers c size hdel hne, ← hn]
  have hlen : (List.take n c.stream).length = n := by
    rw [List.length_take]
    omega
  have hposn : (if (n : Int) > (r : Int) then (r : Int).toNat else n) = min n r := by
    split_ifs <;> omega
  have hsub : ((size : Int) - (r : Int)).toNat = size - r := by omega
  have hn0 : n > 0 := by omega
  simp only [hlen, hposn, hsub, hn0, if_true, Bool.false_eq_true, if_false]

theorem copySlice_length (dst : List Nat) (lo hi : Nat) (src : List Nat)
    (h : hi ≤ dst.length) : (copySlice dst lo hi src).length = dst.length := by
  simp only [copySlice, List.length_append, List.length_take, List.length_drop]
  omega

theorem copySlice_take (dst : List Nat) (lo hi : Nat) (src : List Nat)
    (hsrc : lo + src.length = hi) (h : hi ≤ dst.length) :
    (copySlice dst lo hi src).take hi = dst.take lo ++ src := by
  have hk : min (hi - lo) src.length = src.length := by omega
  simp only [copySlice, hk, List.take_length]
  rw [List.take_append_of_le_length (by simp [List.length_take]; omega)]
  rw [List.take_of_length_le (by simp [List.length_take]; omega)]

/-- The loop of `readExactBytes` on a transport that delivers, when `r` bytes are missing and
the stream has them: it fills the last `r` places of `databuf` with the next `r` stream bytes
and keeps what the last stream read returned beyond them in `buffer`. -/
theorem readExactBytesLoop_spec (size : Nat) :
    ∀ (fuel r : Nat) (c : Conn) (b : Option (List Nat)) (databuf : List Nat),
      c.Delivers → 0 < r → r ≤ c.stream.length → r ≤ size → databuf.length = size → r ≤ fuel →
      ∃ B' S' k,
        readExactBytesLoop size fuel ⟨c, b⟩ databuf (r : Int) =
          some ((some (databuf.take (size - r) ++ c.stream.take r), none),
            ⟨{ c with stream := S', reads := k }, some B'⟩) ∧
        B' ++ S' = c.stream.drop r ∧ B'.length + 1 ≤ size := by
  intro fuel
  induction fuel with
  | zero =>
    intro r c b databuf _ hr _ _ _ hf
    omega
  | succ fuel ih =>
    intro r c b databuf hdel hr hstream hsize hdb hfuel
    obtain ⟨n, hn⟩ : ∃ n, n = min (c.readAnswers c.reads).n (min size c.stream.length) :=
      ⟨_, rfl⟩
    have h1 := (hdel.2 c.reads).1
    have hn1 : 1 ≤ n := by omega
    have hnS : n ≤ c.stream.length := by omega
    have hns : n ≤ size := by omega
    rw [readExactBytesLoop_step size fuel r n c b databuf hdel hr hstream hsize hn]
    by_cases hge : r ≤ n
    · have hz : (r : Int) - (n : Nat) ≤ 0 := by omega
      rw [readExactBytesLoop_done _ _ _ _ _ hz]
      have hmin : min n r = r := by omega
      have htt : (c.stream.take n).take r = c.stream.take r := by
        rw [List.take_take]
        congr 1
        omega
      have e : size - r + r = size := by omega
      refine ⟨(c.stream.take n).drop r, c.stream.drop n, c.reads + 1, ?_, ?_, ?_⟩
      · rw [hmin, htt, e, copySlice_take databuf (size - r) size (c.stream.take r)
          (by rw [List.length_take]; omega) (by omega)]
      · have hsplit : c.stream.drop r = (c.stream.take n ++ c.stream.drop n).drop r := by
          rw [List.take_append_drop]
        rw [hsplit, List.drop_append_of_le_length (by rw [List.length_take]; omega)]
      · rw [List.length_drop, List.length_take]
        omega
    · have hmin : min n r = n := by omega
      have hcast : (r : Int) - (n : Nat) = ((r - n : Nat) : Int) := by omega
      have htt : (c.stream.take n).take n = c.stream.take n := by
        rw [List.take_take, Nat.min_self]
      have hdl : (copySlice databuf (size - r) (size - r + n) (c.stream.take n)).length =
          size := by
        rw [copySlice_length _ _ _ _ (by omega), hdb]
      rw [hmin, htt, hcast]
      obtain ⟨B', S', k, hres, hBS, hB⟩ := ih (r - n)
        { c with stream := c.stream.drop n, reads := c.reads + 1 }
        (some ((c.stream.take n).drop n))
        (copySlice databuf (size - r) (size - r + n) (c.stream.take n))
        hdel (by omega) (by simp only [List.length_drop]; omega) (by omega) hdl (by omega)
      refine ⟨B', S', k, ?_, ?_, hB⟩
      · rw [hres]
        have e : size - (r - n) = size - r + n := by omega
        have hT : (c.stream.take n) ++ (c.stream.drop n).take (r - n) = c.stream.take r := by
          have hrn : r = n + (r - n) := by omega
          conv_rhs => rw [hrn, List.take_add]
        simp only [e]
        rw [copySlice_take databuf (size - r) (size - r + n) (c.stream.take n)
          (by rw [List.length_take]; omega) (by omega), List.append_assoc, hT]
      · rw [hBS]
        simp only [List.drop_drop]
        congr 1
        omega

/-- The loop entered with nothing in `databuf` yet: `size` bytes are read off the stream. -/
theorem readExactBytesLoop_fresh (size fuel : Nat) (c : Conn) (b : Option (List Nat))
    (hdel : c.Delivers) (hb : b.getD [] = []) (hlen : size ≤ c.stream.length)
    (hfuel : size ≤ fuel) :
    ∃ b' S' k,
      readExactBytesLoop size fuel ⟨c, b⟩ (List.replicate size 0) (size : Int) =
        some ((some (c.stream.take size), none), ⟨{ c with stream := S', reads := k }, b'⟩) ∧
      b'.getD [] ++ S' = c.stream.drop size ∧ (b'.getD []).length ≤ size - 1 := by
  by_cases h0 : size = 0
  · subst h0
    refine ⟨b, c.stream, c.reads, ?_, ?_, ?_⟩
    · rw [readExactBytesLoop_done _ _ _ _ _ (by simp)]
      simp
    · simp [hb]
    · simp [hb]
  · obtain ⟨B', S', k, hres, hBS, hB⟩ := readExactBytesLoop_spec size fuel size c b
      (List.replicate size 0) hdel (by omega) hlen (le_refl _) (by simp) hfuel
    refine ⟨some B', S', k, ?_, by simpa using hBS, by simp only [Option.getD_some]; omega⟩
    rw [hres]
    simp

/-- `readExactBytes` on a transport that delivers, for a request within the capacity and a
leftover buffer that is not longer than the request: the result is the first `size` bytes of
the leftover buffer followed by the stream, and the new leftover buffer followed by the unread
stream is the rest. -/
theorem readExactBytes_spec (C fuel size : Nat) (c : Conn) (b : Option (List Nat))
    (hdel : c.Delivers) (hcap : size ≤ C * 1024) (hB : (b.getD []).length ≤ size)
    (hlen : size ≤ (b.getD []).length + c.stream.length) (hfuel : size ≤ fuel) :
    ∃ b' S' k,
      TCPConnectionSocket.readExactBytes C fuel ⟨c, b⟩ size =
        some ((some ((b.getD [] ++ c.stream).take size), none),
          ⟨{ c with stream := S', reads := k }, b'⟩) ∧
      b'.getD [] ++ S' = (b.getD [] ++ c.stream).drop size ∧
      (b'.getD []).length ≤ size - 1 := by
  have hncap : ¬ size > C * 1024 := by omega
  cases b with
  | none =>
    simp only [Option.getD_none, List.length_nil, Nat.zero_add, List.nil_append] at hB hlen ⊢
    simp only [TCPConnectionSocket.readExactBytes, hncap, if_false]
    exact readExactBytesLoop_fresh size fuel c none hdel rfl hlen hfuel
  | some B =>
    simp only [Option.getD_some] at hB hlen ⊢
    simp only [TCPConnectionSocket.readExactBytes, hncap, if_false]
    by_cases hB0 : B.length > 0
    · simp only [hB0, if_true]
      by_cases hlt : B.length < size
      · simp only [hlt, if_true]
        have hcast : (size : Int) - (B.length : Nat) = ((size - B.length : Nat) : Int) := by
          omega
        rw [hcast]
        obtain ⟨B', S', k, hres, hBS, hB'⟩ := readExactBytesLoop_spec size fuel
          (size - B.length) c none (copySlice (List.replicate size 0) 0 B.length B)
          hdel (by omega) (by omega) (by omega)
          (by rw [copySlice_length _ _ _ _ (by simp; omega)]; simp) (by omega)
        refine ⟨some B', S', k, ?_, ?_, by simp only [Option.getD_some]; omega⟩
        · rw [hres]
          have e : size - (size - B.length) = B.length := by omega
          rw [e, copySlice_take (List.replicate size 0) 0 B.length B (by omega)
            (by simp; omega)]
          rw [List.take_append_eq_append_take, List.take_of_length_le (le_of_lt hlt)]
          simp
        · simp only [Option.getD_some]
          rw [hBS, List.drop_append_eq_append_drop, List.drop_of_length_le (le_of_lt hlt)]
          simp
      · have heq : B.length = size := by omega
        simp only [hlt, if_false, heq, if_true]
        refine ⟨none, c.stream, c.reads, ?_, ?_, by simp⟩
        · have := copySlice_take (List.replicate size 0) 0 size B (by omega) (by simp)
          have hR : List.take size (B ++ c.stream) = B := by
            rw [List.take_append_of_le_length (by omega), List.take_of_length_le (by omega)]
          rw [this, hR]
          simp
        · simp only [Option.getD_none, List.nil_append]
          rw [← heq]
          simp
    · simp only [hB0, if_false]
      have hnil : B = [] := List.length_eq_zero.mp (by omega)
      subst hnil
      simp only [List.length_nil, Nat.zero_add, List.nil_append] at hlen ⊢
      exact readExactBytesLoop_fresh size fuel c (some []) hdel rfl hlen hfuel

/-! ## Read -/

theorem Conn.eq_of_stream_nil (c : Conn) (h : c.stream = []) :
    c = { c with stream := [], reads := c.reads } := by
  cases c
  simp only at h
  subst h
  rfl

/-- Stage two of `Read` on a transport that delivers, when `r` payload bytes are missing and
the leftover buffer followed by the stream is exactly those `r` bytes: the last `r` places of
`data` receive them, and nothing is left over. -/
theorem readPayloadLoop_spec (C fuel : Nat) :
    ∀ (rounds r : Nat) (c : Conn) (b : Option (List Nat)) (data rest : List Nat),
      c.Delivers → b.getD [] ++ c.stream = rest → rest.length = r →
      (b.getD []).length < C * 1024 → r ≤ data.length → r ≤ rounds → r ≤ fuel →
      ∃ b' k,
        readPayloadLoop C fuel rounds ⟨c, b⟩ data (r : Int) =
          some ((some (data.take (data.length - r) ++ rest), none),
            ⟨{ c with stream := [], reads := k }, b'⟩) ∧
        b'.getD [] = [] := by
  have hzero : ∀ (rounds : Nat) (c : Conn) (b : Option (List Nat)) (data rest : List Nat),
      b.getD [] ++ c.stream = rest → rest.length = 0 →
      ∃ b' k,
        readPayloadLoop C fuel rounds ⟨c, b⟩ data ((0 : Nat) : Int) =
          some ((some (data.take (data.length - 0) ++ rest), none),
            ⟨{ c with stream := [], reads := k }, b'⟩) ∧
        b'.getD [] = [] := by
    intro rounds c b data rest hrest hlen
    have hnil : rest = [] := List.length_eq_zero.mp hlen
    subst hnil
    obtain ⟨hb, hs⟩ := List.append_eq_nil.mp hrest
    refine ⟨b, c.reads, ?_, hb⟩
    unfold readPayloadLoop
    simp only [Nat.cast_zero, gt_iff_lt, lt_self_iff_false, if_false, Nat.sub_zero,
      List.take_length, List.append_nil]
    rw [← Conn.eq_of_stream_nil c hs]
  intro rounds
  induction rounds with
  | zero =>
    intro r c b data rest _ hrest hlen _ _ hr _
    have h0 : r = 0 := by omega
    subst h0
    exact hzero 0 c b data rest hrest hlen
  | succ rounds ih =>
    intro r c b data rest hdel hrest hlen hB hdata hr hfuel
    by_cases h0 : r = 0
    · subst h0
      exact hzero _ c b data rest hrest hlen
    have hpos : (r : Int) > 0 := by omega
    have hsz : (if ((C : Int) * 1024) > (r : Int) then (r : Int) else (C : Int) * 1024).toNat =
        min (C * 1024) r := by
      split_ifs <;> omega
    have hBr : (b.getD []).length ≤ r := by
      rw [← hlen, ← hrest, List.length_append]
      omega
    have hSr : (b.getD []).length + c.stream.length = r := by
      rw [← hlen, ← hrest, List.length_append]
    obtain ⟨b', S', k, hres, hBS, hB'⟩ := readExactBytes_spec C fuel (min (C * 1024) r) c b
      hdel (by omega) (by omega) (by omega) (by omega)
    rw [hrest] at hres hBS
    have hnl : (rest.take (min (C * 1024) r)).length = min (C * 1024) r := by
      rw [List.length_take]
      omega
    have hcast : (r : Int) - ((min (C * 1024) r : Nat) : Int) =
        ((r - min (C * 1024) r : Nat) : Int) := by omega
    have hlo : ((data.length : Int) - (r : Int)).toNat = data.length - r := by omega
    rw [readPayloadLoop]
    simp only [hpos, if_true, hsz, hres, hnl, hcast, hlo]
    obtain ⟨b'', k', hres2, hb''⟩ := ih (r - min (C * 1024) r)
      { c with stream := S', reads := k } b'
      (copySlice data (data.length - r) (data.length - r + min (C * 1024) r)
        (rest.take (min (C * 1024) r)))
      (rest.drop (min (C * 1024) r)) hdel hBS
      (by rw [List.length_drop]; omega) (by omega)
      (by rw [copySlice_length _ _ _ _ (by omega)]; omega) (by omega) (by omega)
    refine ⟨b'', k', ?_, hb''⟩
    rw [hres2, copySlice_length _ _ _ _ (by omega)]
    have e : data.length - (r - min (C * 1024) r) = data.length - r + min (C * 1024) r := by
      omega
    rw [e, copySlice_take data (data.length - r) (data.length - r + min (C * 1024) r)
      (rest.take (min (C * 1024) r)) (by rw [hnl]) (by omega), List.append_assoc,
      List.take_append_drop]

/-- The part of `Read` after the header, for a frame built by `CreateFrame` and no payload byte
at hand yet. -/
theorem readPayload_spec (C fuel : Nat) (c : Conn) (b : Option (List Nat)) (p : List Nat)
    (hp : p.length < 2 ^ 63) (hdel : c.Delivers) (hrest : b.getD [] ++ c.stream = p)
    (hB : (b.getD []).length < C * 1024) (hfuel : p.length ≤ fuel) :
    ∃ b' k,
      readPayload C fuel ⟨c, b⟩ (CreateFrame 0 0 p.length) [] =
        some ((some p, none), ⟨{ c with stream := [], reads := k }, b'⟩) ∧
      b'.getD [] = [] := by
  have h64 : p.length < 2 ^ 64 := by
    have : (2 : Nat) ^ 63 < 2 ^ 64 := by norm_num
    omega
  have hint : toInt64 p.length = (p.length : Int) := by
    have hm : p.length % 2 ^ 64 = p.length := Nat.mod_eq_of_lt h64
    simp only [toInt64, hm, hp, if_true]
  obtain ⟨b', k, hres, hb'⟩ := readPayloadLoop_spec C fuel fuel p.length c b
    (List.replicate p.length 0) p hdel hrest rfl hB (by simp) hfuel hfuel
  refine ⟨b', k, ?_, hb'⟩
  rw [CreateFrame_fields 0 0 p.length h64]
  simp only [readPayload, List.length_nil, List.length_replicate, gt_iff_lt, Nat.not_lt_zero,
    if_false, HeaderOptionRaw, HeaderVersion1, ne_eq, not_true_eq_false, hint, Nat.cast_zero,
    sub_zero]
  have hcs : copySlice (List.replicate p.length 0) 0 0 [] = List.replicate p.length 0 := by
    simp [copySlice]
  rw [hcs, hres]
  simp

/-- The header that `GetFrame(CreateFrame(0, 0, n))` puts on the wire, followed by any bytes,
parses back to the frame and those bytes. -/
theorem ParseFrame_header_append (n : Nat) (t : List Nat) (hn : n < 2 ^ 64) :
    ParseFrame ((calcByteness n - 1) :: ((putUint64 n).drop (8 - calcByteness n) ++ t)) =
      ⟨some (CreateFrame 0 0 n), some t, none⟩ := by
  obtain ⟨h1, h8, hlt, _⟩ := calcByteness_range n hn
  have hlen : ((putUint64 n).drop (8 - calcByteness n)).length = calcByteness n := by
    rw [List.length_drop, putUint64_length]
    omega
  have hdec : Header.Decode ⟨0, 0, 0⟩ (calcByteness n - 1) = ⟨0, 0, calcByteness n⟩ := by
    rw [Header.Decode_fields]
    have a : (calcByteness n - 1) / 32 % 8 = 0 := by omega
    have b : (calcByteness n - 1) / 8 % 4 = 0 := by omega
    have c : (calcByteness n - 1) % 8 + 1 = calcByteness n := by omega
    rw [a, b, c]
  have hval : uint64BE ((putUint64 n).drop (8 - calcByteness n)) = n := by
    rw [← uint64BE_replicate_zero (8 - calcByteness n),
      putUint64_drop_pad n _ h1 h8 hlt, uint64BE_putUint64 n hn]
  have hp := ParseFrame_ok
    ((calcByteness n - 1) :: ((putUint64 n).drop (8 - calcByteness n) ++ t))
    (calcByteness n)
    (by simp only [List.length_cons, List.length_append, hlen]; omega)
    (by simpa using hdec)
    (by simp only [List.length_cons, List.length_append, hlen]; omega)
  rw [hp]
  have htake : (List.drop 1 ((calcByteness n - 1) ::
      ((putUint64 n).drop (8 - calcByteness n) ++ t))).take (calcByteness n) =
      (putUint64 n).drop (8 - calcByteness n) := by
    simp only [List.drop_succ_cons, List.drop_zero]
    rw [List.take_append_of_le_length (by omega), List.take_of_length_le (by omega)]
  have hdrop : List.drop (1 + calcByteness n) ((calcByteness n - 1) ::
      ((putUint64 n).drop (8 - calcByteness n) ++ t)) = t := by
    rw [Nat.add_comm 1, List.drop_succ_cons]
    exact List.drop_left' hlen
  rw [htake, hdrop, hval]

/-- `Read` on a transport that delivers and holds exactly one frame. -/
theorem Read_single_frame (C fuel : Nat) (p : List Nat) (c : Conn) (b : Option (List Nat))
    (hC : 1 ≤ C) (hp : p.length < 2 ^ 63) (hdel : c.Delivers)
    (hstream : c.stream = (calcByteness p.length - 1) ::
      ((putUint64 p.length).drop (8 - calcByteness p.length) ++ p))
    (hfuel : p.length + 7 ≤ fuel) :
    ∃ b' k,
      TCPConnectionSocket.Read C fuel ⟨c, b⟩ =
        some ((some p, none), ⟨{ c with stream := [], reads := k }, b'⟩) ∧
      b'.getD [] = [] := by
  have h64 : p.length < 2 ^ 64 := by
    have : (2 : Nat) ^ 63 < 2 ^ 64 := by norm_num
    omega
  obtain ⟨h1, h8, hlt, _⟩ := calcByteness_range p.length h64
  have hlen : ((putUint64 p.length).drop (8 - calcByteness p.length)).length =
      calcByteness p.length := by
    rw [List.length_drop, putUint64_length]
    omega
  have hSlen : c.stream.length = 1 + calcByteness p.length + p.length := by
    rw [hstream, List.length_cons, List.length_append, hlen]
    omega
  obtain ⟨b1, S1, k1, hres1, hBS1, hB1⟩ := readExactBytes_spec C fuel 2 c none hdel
    (by omega) (by simp) (by simp; omega) (by omega)
  simp only [Option.getD_none, List.nil_append] at hres1 hBS1
  simp only [TCPConnectionSocket.Read, TCPConnectionSocket.clearBuffers,
    TCPConnectionSocket.initSocket, hres1]
  have hdrop2 : List.drop 2 c.stream =
      ((putUint64 p.length).drop (8 - calcByteness p.length) ++ p).drop 1 := by
    rw [hstream]
    rfl
  by_cases hw1 : calcByteness p.length = 1
  · have htake : List.take 2 c.stream = (calcByteness p.length - 1) ::
        ((putUint64 p.length).drop (8 - calcByteness p.length) ++ []) := by
      rw [hstream, List.append_nil]
      show _ :: List.take 1 _ = _
      rw [List.take_append_of_le_length (by omega), List.take_of_length_le (by omega)]
    have hrest : b1.getD [] ++ S1 = p := by
      rw [hBS1, hdrop2]
      exact List.drop_left' (by omega)
    rw [htake, ParseFrame_header_append _ _ h64]
    simp only []
    obtain ⟨b', k, hres, hb'⟩ := readPayload_spec C fuel { c with stream := S1, reads := k1 }
      b1 p hp hdel hrest (by omega) (by omega)
    exact ⟨b', k, hres, hb'⟩
  · have htl : (List.take 2 c.stream).length = 2 := by
      rw [List.length_take]
      omega
    have hhead : (List.take 2 c.stream).getD 0 0 = calcByteness p.length - 1 := by
      rw [hstream]
      rfl
    have hdec : Header.Decode ⟨0, 0, 0⟩ ((List.take 2 c.stream).getD 0 0) =
        ⟨0, 0, calcByteness p.length⟩ := by
      rw [hhead, Header.Decode_fields]
      have a : (calcByteness p.length - 1) / 32 % 8 = 0 := by omega
      have b : (calcByteness p.length - 1) / 8 % 4 = 0 := by omega
      have c : (calcByteness p.length - 1) % 8 + 1 = calcByteness p.length := by omega
      rw [a, b, c]
    have hneed := ParseFrame_needMore (List.take 2 c.stream) (calcByteness p.length)
      (by omega) hdec (by omega)
    rw [htl] at hneed
    rw [hneed]
    simp only [List.length_replicate]
    have hS1len : (b1.getD []).length + S1.length = c.stream.length - 2 := by
      rw [← List.length_append, hBS1, List.length_drop]
    obtain ⟨b2, S2, k2, hres2, hBS2, hB2⟩ := readExactBytes_spec C fuel
      (1 + calcByteness p.length - 2) { c with stream := S1, reads := k1 } b1 hdel
      (by omega) (by omega) (by simp only []; omega) (by omega)
    simp only [] at hres2 hBS2
    rw [hres2]
    simp only []
    have hfull : List.take 2 c.stream ++
        List.take (1 + calcByteness p.length - 2) (b1.getD [] ++ S1) =
        (calcByteness p.length - 1) ::
          ((putUint64 p.length).drop (8 - calcByteness p.length) ++ []) := by
      rw [hBS1, ← List.take_add, hstream, List.append_nil]
      have e : 2 + (1 + calcByteness p.length - 2) = calcByteness p.length + 1 := by omega
      rw [e, List.take_succ_cons, List.take_append_of_le_length (by omega),
        List.take_of_length_le (by omega)]
    have hrest : b2.getD [] ++ S2 = p := by
      rw [hBS2, hBS1, List.drop_drop, hstream]
      have e : 2 + (1 + calcByteness p.length - 2) = calcByteness p.length + 1 := by omega
      rw [e, List.drop_succ_cons]
      exact List.drop_left' hlen
    rw [hfull, ParseFrame_header_append _ _ h64]
    simp only []
    obtain ⟨b', k, hres, hb'⟩ := readPayload_spec C fuel { c with stream := S2, reads := k2 }
      b2 p hp hdel hrest (by omega) (by omega)
    exact ⟨b', k, hres, hb'⟩

/-! ## Claims on `Read` and `Write` -/

/-- C11: for every payload `p` shorter than `2^63`, an internal buffer of at least 1 KiB and a
connection (freshly initialised or not: `Read` clears the leftover buffer first) whose stream
holds exactly `GetFrame(CreateFrame(0, 0, len p))` followed by `p`, and for every way the
transport splits those bytes (every stream read returns at least 1 and at most the requested
number of bytes, without error), `Read` returns, without error, exactly `p`, and leaves the
leftover buffer and the stream empty and the connection open.  Fuel `len p + 7` is enough. -/
theorem C11_read_returns_whole_payload (C fuel : Nat) (p fb : List Nat)
    (t : TCPConnectionSocket) (hC : 1 ≤ C) (hp : p.length < 2 ^ 63)
    (hdel : t.connection.Delivers)
    (hfb : (CreateFrame HeaderVersion1 HeaderOptionRaw p.length).GetFrame = some fb)
    (hstream : t.connection.stream = fb ++ p) (hfuel : p.length + 7 ≤ fuel) :
    ∃ t', t.Read C fuel = some ((some p, none), t') ∧ t'.buffer.getD [] = [] ∧
      t'.connection.stream = [] ∧ t'.connection.closed = false := by
  have h64 : p.length < 2 ^ 64 := by
    have : (2 : Nat) ^ 63 < 2 ^ 64 := by norm_num
    omega
  have hg := GetFrame_CreateFrame 0 0 p.length h64
  simp only [HeaderVersion1, HeaderOptionRaw] at hfb
  rw [hg] at hfb
  have hfb' : fb = (calcByteness p.length - 1) ::
      (putUint64 p.length).drop (8 - calcByteness p.length) := by
    have := Option.some.inj hfb
    rw [← this]
    simp
  obtain ⟨c, b⟩ := t
  simp only at hdel hstream
  obtain ⟨b', k, hres, hb'⟩ := Read_single_frame C fuel p c b hC hp hdel
    (by rw [hstream, hfb', List.cons_append]) hfuel
  exact ⟨_, hres, hb', rfl, hdel.1⟩

/-- Witness of C11: the payload `AA BB CC` behind its frame header `00 03`, stream reads of 1,
2, 3, 1, 2, 3, ... bytes, an internal buffer of 1 KiB. -/
theorem C11_read_returns_whole_payload_witness :
    ∃ t', TCPConnectionSocket.Read 1 10
        ⟨{ stream := [0x00, 0x03, 0xAA, 0xBB, 0xCC]
           readAnswers := fun i => ⟨1 + i % 3, false⟩ }, none⟩ =
        some ((some [0xAA, 0xBB, 0xCC], none), t') ∧ t'.buffer.getD [] = [] ∧
      t'.connection.stream = [] ∧ t'.connection.closed = false :=
  C11_read_returns_whole_payload 1 10 [0xAA, 0xBB, 0xCC] [0x00, 0x03]
    ⟨{ stream := [0x00, 0x03, 0xAA, 0xBB, 0xCC], readAnswers := fun i => ⟨1 + i % 3, false⟩ },
      none⟩
    (by decide) (by norm_num) ⟨rfl, fun i => ⟨by simp, rfl⟩⟩ (by decide) rfl (by decide)

/-- C12: for every payload `p`, when the connection is open and the stream accepts every byte
offered without error, `Write(p)` returns no error, makes exactly two stream writes and the
bytes it appends to the stream are exactly
`GetFrame(CreateFrame(HeaderVersion1, HeaderOptionRaw, len p))`, written first, followed by the
unmodified `p`; the connection stays open. -/
theorem C12_write_header_then_payload (t : TCPConnectionSocket) (p fb : List Nat)
    (hp : p.length < 2 ^ 64) (hopen : t.connection.closed = false)
    (hfb : (CreateFrame HeaderVersion1 HeaderOptionRaw p.length).GetFrame = some fb)
    (h1 : fb.length ≤ (t.connection.writeAnswers t.connection.writes).n)
    (h1e : (t.connection.writeAnswers t.connection.writes).err = false)
    (h2 : p.length ≤ (t.connection.writeAnswers (t.connection.writes + 1)).n)
    (h2e : (t.connection.writeAnswers (t.connection.writes + 1)).err = false) :
    (t.Write p).1 = none ∧
    (t.connection.Write fb).2.written = t.connection.written ++ fb ∧
    (t.Write p).2.connection.written = t.connection.written ++ fb ++ p ∧
    (t.Write p).2.connection.writes = t.connection.writes + 2 ∧
    (t.Write p).2.connection.closed = false := by
  have hm : p.length % 2 ^ 64 = p.length := Nat.mod_eq_of_lt hp
  have hmin1 : min (t.connection.writeAnswers t.connection.writes).n fb.length = fb.length :=
    Nat.min_eq_right h1
  have hmin2 : min (t.connection.writeAnswers (t.connection.writes + 1)).n p.length =
      p.length := Nat.min_eq_right h2
  simp only [TCPConnectionSocket.Write, hm, hfb, Conn.Write, hopen, Bool.false_eq_true,
    if_false, hmin1, hmin2, h1e, h2e, ne_eq, not_true_eq_false, List.take_length]
  simp

/-- Witness of C12: the payload `AA BB CC` on a stream that accepts up to 16 bytes per
write. -/
theorem C12_write_header_then_payload_witness :
    ((⟨{ stream := [], readAnswers := fun _ => ⟨1, false⟩,
          writeAnswers := fun _ => ⟨16, false⟩ }, none⟩ : TCPConnectionSocket).Write
        [0xAA, 0xBB, 0xCC]).2.connection.written = [] ++ [0x00, 0x03] ++ [0xAA, 0xBB, 0xCC] :=
  (C12_write_header_then_payload
    ⟨{ stream := [], readAnswers := fun _ => ⟨1, false⟩, writeAnswers := fun _ => ⟨16, false⟩ },
      none⟩
    [0xAA, 0xBB, 0xCC] [0x00, 0x03] (by norm_num) rfl (by decide) (by decide) rfl (by decide)
    rfl).2.2.1

/-- C13: for every payload `p`, `Write(p)` returns an error if and only if its first stream
write (the frame header) accepts fewer bytes than requested or reports an error, or, that one
having gone through, its second stream write (the payload) does; whenever `Write` returns an
error the connection is closed; and if the header write is the one that fails, the second
stream write is not made: the stream has received only what the header write accepted. -/
theorem C13_write_error_closes (t : TCPConnectionSocket) (p fb : List Nat)
    (hp : p.length < 2 ^ 64)
    (hfb : (CreateFrame HeaderVersion1 HeaderOptionRaw p.length).GetFrame = some fb) :
    ((t.Write p).1 ≠ none ↔
      ((t.connection.Write fb).1.1 < fb.length ∨ (t.connection.Write fb).1.2 = true ∨
        ((t.connection.Write fb).1.1 = fb.length ∧ (t.connection.Write fb).1.2 = false ∧
          (((t.connection.Write fb).2.Write p).1.1 < p.length ∨
            ((t.connection.Write fb).2.Write p).1.2 = true)))) ∧
    ((t.Write p).1 ≠ none → (t.Write p).2.connection.closed = true) ∧
    (((t.connection.Write fb).1.1 < fb.length ∨ (t.connection.Write fb).1.2 = true) →
      (t.Write p).2.connection.written = (t.connection.Write fb).2.written ∧
      (t.Write p).2.connection.writes = (t.connection.Write fb).2.writes ∧
      (t.connection.Write fb).2.written =
        t.connection.written ++ fb.take (t.connection.Write fb).1.1) := by
  have hm : p.length % 2 ^ 64 = p.length := Nat.mod_eq_of_lt hp
  have hle1 : (t.connection.Write fb).1.1 ≤ fb.length := by
    unfold Conn.Write
    split_ifs
    · exact Nat.zero_le _
    · exact Nat.min_le_right _ _
  have hle2 : ((t.connection.Write fb).2.Write p).1.1 ≤ p.length := by
    generalize (t.connection.Write fb).2 = c2
    unfold Conn.Write
    split_ifs
    · exact Nat.zero_le _
    · exact Nat.min_le_right _ _
  have hw1 : (t.connection.Write fb).2.written =
      t.connection.written ++ fb.take (t.connection.Write fb).1.1 := by
    unfold Conn.Write
    split_ifs <;> simp
  simp only [TCPConnectionSocket.Write, hm, hfb]
  by_cases ha : (t.connection.Write fb).1.1 = fb.length
  · by_cases hb : (t.connection.Write fb).1.2 = true
    · simp [ha, hb, Conn.Close, hw1]
    · have hb' : (t.connection.Write fb).1.2 = false := by simpa using hb
      by_cases hc : ((t.connection.Write fb).2.Write p).1.1 = p.length
      · by_cases hd : ((t.connection.Write fb).2.Write p).1.2 = true
        · simp [ha, hb', hc, hd, Conn.Close]
        · have hd' : ((t.connection.Write fb).2.Write p).1.2 = false := by simpa using hd
          simp [ha, hb', hc, hd']
      · have hlt : ((t.connection.Write fb).2.Write p).1.1 < p.length := by omega
        simp [ha, hb', hc, hlt, Conn.Close]
  · have hlt : (t.connection.Write fb).1.1 < fb.length := by omega
    simp [ha, hlt, Conn.Close, hw1]

/-- Witness of C13: the stream accepts only one byte of the two-byte frame header, so `Write`
fails, the connection is closed and no payload byte is written. -/
theorem C13_write_error_closes_witness :
    ((⟨{ stream := [], readAnswers := fun _ => ⟨1, false⟩,
          writeAnswers := fun _ => ⟨1, false⟩ }, none⟩ : TCPConnectionSocket).Write
        [0xAA, 0xBB, 0xCC]).1 = some (.frameShortWrite 2 1) ∧
    ((⟨{ stream := [], readAnswers := fun _ => ⟨1, false⟩,
          writeAnswers := fun _ => ⟨1, false⟩ }, none⟩ : TCPConnectionSocket).Write
        [0xAA, 0xBB, 0xCC]).2.connection.closed = true ∧
    ((⟨{ stream := [], readAnswers := fun _ => ⟨1, false⟩,
          writeAnswers := fun _ => ⟨1, false⟩ }, none⟩ : TCPConnectionSocket).Write
        [0xAA, 0xBB, 0xCC]).2.connection.written = [0x00] :=
  ⟨by decide,
    (C13_write_error_closes
      ⟨{ stream := [], readAnswers := fun _ => ⟨1, false⟩,
         writeAnswers := fun _ => ⟨1, false⟩ }, none⟩
      [0xAA, 0xBB, 0xCC] [0x00, 0x03] (by norm_num) (by decide)).2.1 (by decide),
    by decide⟩

/-- A header byte with a non-zero version or options field is a hard failure of `ParseFrame`
on every buffer of at least two bytes. -/
theorem ParseFrame_bad_header (buf : List Nat) (hlen : 2 ≤ buf.length)
    (hbad : buf.getD 0 0 / 32 % 8 ≠ 0 ∨ buf.getD 0 0 / 8 % 4 ≠ 0) :
    ∃ e, ParseFrame buf = ⟨none, none, some e⟩ ∧
      (e = .invalidHeaderVersion ∨ e = .invalidOptionsValue) := by
  have hnlt : ¬ buf.length < 2 := by omega
  by_cases hv : buf.getD 0 0 / 32 % 8 = 0
  · have ho : buf.getD 0 0 / 8 % 4 ≠ 0 := by
      rcases hbad with h | h
      · exact absurd hv h
      · exact h
    refine ⟨.invalidOptionsValue, ?_, Or.inr rfl⟩
    simp only [ParseFrame, hnlt, if_false, Header.Decode_fields, HeaderVersion1,
      HeaderOptionRaw, ne_eq, hv, not_true_eq_false, ho, not_false_eq_true, if_true]
  · refine ⟨.invalidHeaderVersion, ?_, Or.inl rfl⟩
    simp only [ParseFrame, hnlt, if_false, Header.Decode_fields, HeaderVersion1, ne_eq, hv,
      not_false_eq_true, if_true]

/-- C14: for every stream that delivers at least two bytes and whose first byte has version bits
different from 0 or options bits different from 0, whatever the bytes after it, the leftover
buffer and the buffer capacity, `Read` returns an error and no payload, and the connection is
closed when it returns; with a capacity of at least 1 KiB the error is "Invalid Header Version"
or "Invalid Options Value". -/
theorem C14_read_bad_header_closes (C fuel : Nat) (t : TCPConnectionSocket)
    (hdel : t.connection.Delivers) (hlen : 2 ≤ t.connection.stream.length)
    (hbad : t.connection.stream.getD 0 0 / 32 % 8 ≠ 0 ∨
      t.connection.stream.getD 0 0 / 8 % 4 ≠ 0)
    (hfuel : 2 ≤ fuel) :
    ∃ e t', t.Read C fuel = some ((none, some e), t') ∧ t'.connection.closed = true ∧
      (1 ≤ C → e = .parse .invalidHeaderVersion ∨ e = .parse .invalidOptionsValue) := by
  obtain ⟨c, b⟩ := t
  simp only at hdel hlen hbad
  by_cases hcap : 2 ≤ C * 1024
  · obtain ⟨b1, S1, k1, hres1, _, _⟩ := readExactBytes_spec C fuel 2 c none hdel
      hcap (by simp) (by simp; omega) hfuel
    simp only [Option.getD_none, List.nil_append] at hres1
    have hl2 : 2 ≤ (List.take 2 c.stream).length := by
      rw [List.length_take]
      omega
    have hhead : (List.take 2 c.stream).getD 0 0 = c.stream.getD 0 0 := by
      match hs : c.stream, hlen with
      | a :: a' :: rest, _ => rfl
    obtain ⟨e, hparse, he⟩ := ParseFrame_bad_header (List.take 2 c.stream) hl2
      (by rw [hhead]; exact hbad)
    refine ⟨.parse e, ⟨Conn.Close { c with stream := S1, reads := k1 }, b1⟩, ?_, rfl, ?_⟩
    · simp only [TCPConnectionSocket.Read, TCPConnectionSocket.clearBuffers,
        TCPConnectionSocket.initSocket, hres1, hparse]
    · intro _
      rcases he with h | h
      · exact Or.inl (by rw [h])
      · exact Or.inr (by rw [h])
  · have hgt : 2 > C * 1024 := by omega
    refine ⟨.bufferExceeded (((2 : Nat) : Int) - ((C * 1024 : Nat) : Int)),
      ⟨Conn.Close c, none⟩, ?_, rfl, ?_⟩
    · simp only [TCPConnectionSocket.Read, TCPConnectionSocket.clearBuffers,
        TCPConnectionSocket.initSocket, TCPConnectionSocket.readExactBytes, hgt, if_true]
    · intro h
      omega

/-- Witness of C14: the header byte `0x20` (version 1) followed by two bytes. -/
theorem C14_read_bad_header_closes_witness :
    ∃ e t', TCPConnectionSocket.Read 1024 2
        ⟨{ stream := [0x20, 0x01, 0xAA], readAnswers := fun _ => ⟨1, false⟩ }, none⟩ =
        some ((none, some e), t') ∧ t'.connection.closed = true ∧
      (1 ≤ 1024 → e = .parse .invalidHeaderVersion ∨ e = .parse .invalidOptionsValue) :=
  C14_read_bad_header_closes 1024 2
    ⟨{ stream := [0x20, 0x01, 0xAA], readAnswers := fun _ => ⟨1, false⟩ }, none⟩
    ⟨rfl, fun _ => ⟨Nat.le_refl 1, rfl⟩⟩ (by decide) (by decide) (by decide)

/-- C17: for every buffer `buf` on which `ParseFrame` signals that more bytes are needed (an
error with a non-nil second result `k`, whose length is the number `n` of bytes needed) and
every `extra` of exactly `n` bytes, `ParseFrame` of `buf` followed by `extra` succeeds with no
unused bytes, and `len(buf) + n ≤ 9`: the retry made by `Read` never signals need-more
again. -/
theorem C17_one_retry_suffices (buf extra k : List Nat) (herr : (ParseFrame buf).err ≠ none)
    (hk : (ParseFrame buf).unused = some k) (hextra : extra.length = k.length) :
    (∃ f, ParseFrame (buf ++ extra) = ⟨some f, some [], none⟩) ∧
    buf.length + k.length ≤ 9 ∧ 1 ≤ k.length := by
  by_cases h2 : buf.length < 2
  · simp [ParseFrame, h2] at hk
  by_cases hbad : buf.getD 0 0 / 32 % 8 ≠ 0 ∨ buf.getD 0 0 / 8 % 4 ≠ 0
  · obtain ⟨e, hparse, _⟩ := ParseFrame_bad_header buf (by omega) hbad
    rw [hparse] at hk
    simp at hk
  have hv : buf.getD 0 0 / 32 % 8 = 0 := by
    by_contra h
    exact hbad (Or.inl h)
  have ho : buf.getD 0 0 / 8 % 4 = 0 := by
    by_contra h
    exact hbad (Or.inr h)
  have hdec : Header.Decode ⟨0, 0, 0⟩ (buf.getD 0 0) = ⟨0, 0, buf.getD 0 0 % 8 + 1⟩ := by
    rw [Header.Decode_fields, hv, ho]
  by_cases hw : buf.length < 1 + (buf.getD 0 0 % 8 + 1)
  · rw [ParseFrame_needMore buf _ (by omega) hdec hw] at hk
    have hkl : k.length = 1 + (buf.getD 0 0 % 8 + 1) - buf.length := by
      have := Option.some.inj hk
      rw [← this, List.length_replicate]
    have hhead : (buf ++ extra).getD 0 0 = buf.getD 0 0 := by
      match buf, h2 with
      | a :: rest, _ => rfl
    have hlen : (buf ++ extra).length = 1 + (buf.getD 0 0 % 8 + 1) := by
      rw [List.length_append, hextra, hkl]
      omega
    have hok := ParseFrame_ok (buf ++ extra) (buf.getD 0 0 % 8 + 1)
      (by rw [hlen]; omega) (by rw [hhead]; exact hdec) (by rw [hlen])
    refine ⟨⟨CreateFrame 0 0
      (uint64BE (List.take (buf.getD 0 0 % 8 + 1) (List.drop 1 (buf ++ extra)))), ?_⟩,
      by omega, by omega⟩
    have hd : List.drop (1 + (buf.getD 0 0 % 8 + 1)) (buf ++ extra) = [] :=
      List.drop_of_length_le (by rw [hlen])
    rw [hok, hd]
  · rw [ParseFrame_ok buf _ (by omega) hdec (by omega)] at herr
    simp at herr

/-- Witness of C17: the header `0x02` (width 3) with one length byte at hand, two missing. -/
theorem C17_one_retry_suffices_witness :
    (∃ f, ParseFrame ([0x02, 0x01] ++ [0x00, 0x00]) = ⟨some f, some [], none⟩) ∧
    [0x02, 0x01].length + [0, 0].length ≤ 9 ∧ 1 ≤ [0, 0].length :=
  C17_one_retry_suffices [0x02, 0x01] [0x00, 0x00] [0, 0] (by decide) (by decide) (by decide)

/-- C18: `Read` starts by clearing the leftover buffer, so two connection states that differ
only in the leftover buffer and face the same stream and the same splitting give the same
result of `Read` (payload or error) and the same final state (leftover buffer, stream
position, open or closed): the bytes in the leftover buffer on entry have no influence on what
`Read` returns. -/
theorem C18_read_ignores_leftover (C fuel : Nat) (c : Conn) (b1 b2 : Option (List Nat)) :
    (⟨c, b1⟩ : TCPConnectionSocket).clearBuffers.buffer = none ∧
    TCPConnectionSocket.Read C fuel ⟨c, b1⟩ = TCPConnectionSocket.Read C fuel ⟨c, b2⟩ ∧
    TCPConnectionSocket.Read C fuel ⟨c, b1⟩ = TCPConnectionSocket.Read C fuel ⟨c, none⟩ :=
  ⟨rfl, rfl, rfl⟩

/-- At the end of the stream (or on a closed connection) every stream read returns no byte,
and the loop of `readExactBytes` goes on whatever the fuel. -/
theorem readExactBytesLoop_eof (size : Nat) :
    ∀ (fuel : Nat) (c : Conn) (b : Option (List Nat)) (databuf : List Nat) (z : Int),
      0 < z → c.stream = [] → readExactBytesLoop size fuel ⟨c, b⟩ databuf z = none := by
  intro fuel
  induction fuel with
  | zero =>
    intro c b databuf z hz _
    unfold readExactBytesLoop
    simp [hz]
  | succ fuel ih =>
    intro c b databuf z hz hs
    rw [readExactBytesLoop]
    by_cases hcl : c.closed = true
    · simp only [gt_iff_lt, hz, if_true, Conn.Read, hcl, List.length_nil, lt_self_iff_false,
        if_false]
      exact ih c b databuf z hz hs
    · simp only [gt_iff_lt, hz, if_true, Conn.Read, hcl, hs, Bool.false_eq_true, if_false,
        List.length_nil, lt_self_iff_false]
      exact ih _ b databuf z hz rfl

/-- The loop of `readExactBytes` returns no other error than "Fatal". -/
theorem readExactBytesLoop_error (size : Nat) :
    ∀ (fuel : Nat) (t : TCPConnectionSocket) (databuf : List Nat) (z : Int)
      (x : Option (List Nat)) (e : SocketError) (t' : TCPConnectionSocket),
      readExactBytesLoop size fuel t databuf z = some ((x, some e), t') → e = .fatal := by
  intro fuel
  induction fuel with
  | zero =>
    intro t databuf z x e t' h
    unfold readExactBytesLoop at h
    by_cases hz : z > 0
    · simp [hz] at h
    · simp [hz] at h
  | succ fuel ih =>
    intro t databuf z x e t' h
    rw [readExactBytesLoop] at h
    by_cases hz : z > 0
    · simp only [hz, if_true] at h
      by_cases hn : (t.connection.Read size).1.1.length > 0
      · simp only [hn, if_true] at h
        by_cases he : (t.connection.Read size).1.2 = true
        · simp only [he, if_true, Option.some.injEq, Prod.mk.injEq] at h
          exact h.1.2.symm
        · simp only [he, if_false] at h
          exact ih _ _ _ _ _ _ h
      · simp only [hn, if_false] at h
        exact ih _ _ _ _ _ _ h
    · simp [hz] at h

/-- C15 does not hold of the code.  On a connection whose peer has closed the stream (every
stream read returns zero bytes and an error) `readExactBytes(2)` and `Read` do not return,
whatever the number of stream reads allowed: the loop of `readExactBytes` looks at the error
only when the stream read returned bytes.  The same happens when the stream ends after the
first byte of a frame. -/
theorem C15_read_spins_at_end_of_stream (fuel : Nat) :
    ((⟨[], fun _ => ⟨1, false⟩, 0, [], fun _ => ⟨0, true⟩, 0, false⟩ : Conn).Read 2).1 =
      ([], true) ∧
    TCPConnectionSocket.readExactBytes 1024 fuel
      ⟨⟨[], fun _ => ⟨1, false⟩, 0, [], fun _ => ⟨0, true⟩, 0, false⟩, none⟩ 2 = none ∧
    TCPConnectionSocket.Read 1024 fuel
      ⟨⟨[], fun _ => ⟨1, false⟩, 0, [], fun _ => ⟨0, true⟩, 0, false⟩, none⟩ = none ∧
    TCPConnectionSocket.Read 1024 (fuel + 1)
      ⟨⟨[0x00], fun _ => ⟨1, false⟩, 0, [], fun _ => ⟨0, true⟩, 0, false⟩, none⟩ = none := by
  have h2 : ¬ (2 > 1024 * 1024) := by decide
  refine ⟨by decide, ?_, ?_, ?_⟩
  · simp only [TCPConnectionSocket.readExactBytes, h2, if_false]
    exact readExactBytesLoop_eof 2 fuel _ _ _ _ (by decide) rfl
  · simp only [TCPConnectionSocket.Read, TCPConnectionSocket.clearBuffers,
      TCPConnectionSocket.initSocket, TCPConnectionSocket.readExactBytes, h2, if_false]
    rw [readExactBytesLoop_eof 2 fuel _ _ _ _ (by decide) rfl]
  · have hloop : readExactBytesLoop 2 (fuel + 1)
        ⟨⟨[0x00], fun _ => ⟨1, false⟩, 0, [], fun _ => ⟨0, true⟩, 0, false⟩, none⟩
        (List.replicate 2 0) ((2 : Nat) : Int) = none := by
      rw [readExactBytesLoop]
      simp only [Conn.Read]
      simp
      exact readExactBytesLoop_eof 2 fuel _ _ _ _ (by norm_num) rfl
    simp only [TCPConnectionSocket.Read, TCPConnectionSocket.clearBuffers,
      TCPConnectionSocket.initSocket, TCPConnectionSocket.readExactBytes, h2, if_false, hloop]

/-- C16 does not hold of the code.  With the leftover buffer `11 22` and a request for 1 byte
`readExactBytes` returns `22`, not `11`, and keeps `22` as the leftover: the byte `11` is
dropped and `22` is served twice.  `Read` gets there on the stream `07 00 00 00 00 00 00 00 01`
(a frame header of width 8 for a payload of one byte), `11` (the payload), `22`, split into
stream reads of 2, 6 and 3 bytes: it returns `22` instead of `11`. -/
theorem C16_leftover_longer_than_request :
    (TCPConnectionSocket.readExactBytes 1024 4
        ⟨{ stream := [0x33], readAnswers := fun _ => ⟨1, false⟩ }, some [0x11, 0x22]⟩ 1).map
        (fun r => (r.1, r.2.buffer, r.2.connection.stream, r.2.connection.reads)) =
      some ((some [0x22], none), some [0x22], [0x33], 0) ∧
    ([0x11, 0x22] ++ [0x33]).take 1 = [0x11] ∧
    (TCPConnectionSocket.Read 1024 8
        ⟨{ stream := [0x07, 0, 0, 0, 0, 0, 0, 0, 1, 0x11, 0x22]
           readAnswers := fun i => ⟨[2, 6, 3].getD i 1, false⟩ }, none⟩).map
        (fun r => (r.1, r.2.buffer, r.2.connection.stream)) =
      some ((some [0x22], none), some [0x22], []) := by
  refine ⟨by decide, by decide, by decide!⟩

/-! ## The buffer cap -/

/-- A request within the capacity never gets the "Attempted to exceed buffer" error: the only
error `readExactBytes` returns then is "Fatal". -/
theorem readExactBytes_error (C fuel size : Nat) (t : TCPConnectionSocket)
    (hcap : size ≤ C * 1024) (x : Option (List Nat)) (e : SocketError)
    (t' : TCPConnectionSocket)
    (h : t.readExactBytes C fuel size = some ((x, some e), t')) : e = .fatal := by
  have hncap : ¬ size > C * 1024 := by omega
  simp only [TCPConnectionSocket.readExactBytes, hncap, if_false] at h
  split at h
  · split_ifs at h
    · exact readExactBytesLoop_error _ _ _ _ _ _ _ _ h
    · simp at h
    · simp at h
    · exact readExactBytesLoop_error _ _ _ _ _ _ _ _ h
  · exact readExactBytesLoop_error _ _ _ _ _ _ _ _ h

/-- The need-more signal of `ParseFrame` asks for 1 to 7 bytes. -/
theorem ParseFrame_signal_length (buf k : List Nat) (herr : (ParseFrame buf).err ≠ none)
    (hk : (ParseFrame buf).unused = some k) : 1 ≤ k.length ∧ k.length ≤ 7 := by
  by_cases h2 : buf.length < 2
  · simp [ParseFrame, h2] at hk
  by_cases hbad : buf.getD 0 0 / 32 % 8 ≠ 0 ∨ buf.getD 0 0 / 8 % 4 ≠ 0
  · obtain ⟨e, hparse, _⟩ := ParseFrame_bad_header buf (by omega) hbad
    rw [hparse] at hk
    simp at hk
  have hv : buf.getD 0 0 / 32 % 8 = 0 := by
    by_contra h
    exact hbad (Or.inl h)
  have ho : buf.getD 0 0 / 8 % 4 = 0 := by
    by_contra h
    exact hbad (Or.inr h)
  have hdec : Header.Decode ⟨0, 0, 0⟩ (buf.getD 0 0) = ⟨0, 0, buf.getD 0 0 % 8 + 1⟩ := by
    rw [Header.Decode_fields, hv, ho]
  by_cases hw : buf.length < 1 + (buf.getD 0 0 % 8 + 1)
  · rw [ParseFrame_needMore buf _ (by omega) hdec hw] at hk
    have hkl : k.length = 1 + (buf.getD 0 0 % 8 + 1) - buf.length := by
      have := Option.some.inj hk
      rw [← this, List.length_replicate]
    omega
  · rw [ParseFrame_ok buf _ (by omega) hdec (by omega)] at herr
    simp at herr

/-- Stage two of `Read` never returns the "Attempted to exceed buffer" error. -/
theorem readPayloadLoop_error (C fuel : Nat) :
    ∀ (rounds : Nat) (t : TCPConnectionSocket) (data : List Nat) (z : Int)
      (x : Option (List Nat)) (e : SocketError) (t' : TCPConnectionSocket),
      readPayloadLoop C fuel rounds t data z = some ((x, some e), t') →
      e.isBufferExceeded = false := by
  intro rounds
  induction rounds with
  | zero =>
    intro t data z x e t' h
    unfold readPayloadLoop at h
    by_cases hz : z > 0
    · simp [hz] at h
    · simp [hz] at h
  | succ rounds ih =>
    intro t data z x e t' h
    rw [readPayloadLoop] at h
    by_cases hz : z > 0
    · simp only [hz, if_true] at h
      have hsz : (if ((C : Int) * 1024) > z then z else (C : Int) * 1024).toNat ≤ C * 1024 := by
        split_ifs <;> omega
      split at h
      · simp at h
      · exact ih _ _ _ _ _ _ h
      · rename_i heq
        have he := readExactBytes_error C fuel _ t hsz _ _ _ heq
        simp only [Option.some.injEq, Prod.mk.injEq] at h
        rw [← h.1.2, he]
        rfl
      · simp only [Option.some.injEq, Prod.mk.injEq] at h
        rw [← h.1.2]
        rfl
    · simp [hz] at h

theorem readPayload_error (C fuel : Nat) (t : TCPConnectionSocket) (f : Frame)
    (f_data : List Nat) (x : Option (List Nat)) (e : SocketError) (t' : TCPConnectionSocket)
    (h : readPayload C fuel t f f_data = some ((x, some e), t')) :
    e.isBufferExceeded = false := by
  simp only [readPayload] at h
  split_ifs at h
  · simp only [Option.some.injEq, Prod.mk.injEq] at h
    rw [← h.1.2]
    rfl
  · simp only [Option.some.injEq, Prod.mk.injEq] at h
    rw [← h.1.2]
    rfl
  · simp only [Option.some.injEq, Prod.mk.injEq] at h
    rw [← h.1.2]
    rfl
  · exact readPayloadLoop_error C fuel _ _ _ _ _ _ _ h

/-- With a capacity of at least 1 KiB no request of `Read` exceeds it: `Read` never returns the
"Attempted to exceed buffer" error. -/
theorem Read_error (C fuel : Nat) (hC : 1 ≤ C) (t : TCPConnectionSocket)
    (x : Option (List Nat)) (e : SocketError) (t' : TCPConnectionSocket)
    (h : t.Read C fuel = some ((x, some e), t')) : e.isBufferExceeded = false := by
  simp only [TCPConnectionSocket.Read] at h
  split at h
  · simp at h
  · rename_i heq
    have he := readExactBytes_error C fuel 2 _ (by omega) _ _ _ heq
    simp only [Option.some.injEq, Prod.mk.injEq] at h
    rw [← h.1.2, he]
    rfl
  · simp only [Option.some.injEq, Prod.mk.injEq] at h
    rw [← h.1.2]
    rfl
  · split at h
    · simp only [Option.some.injEq, Prod.mk.injEq] at h
      rw [← h.1.2]
      rfl
    · rename_i hparse
      have hkl := (ParseFrame_signal_length _ _ (by rw [hparse]; simp)
        (by rw [hparse])).2
      split at h
      · simp at h
      · rename_i heq
        have he := readExactBytes_error C fuel _ _ (by omega) _ _ _ heq
        simp only [Option.some.injEq, Prod.mk.injEq] at h
        rw [← h.1.2, he]
        rfl
      · simp only [Option.some.injEq, Prod.mk.injEq] at h
        rw [← h.1.2]
        rfl
      · split at h
        · simp only [Option.some.injEq, Prod.mk.injEq] at h
          rw [← h.1.2]
          rfl
        · exact readPayload_error _ _ _ _ _ _ _ _ h
        · exact readPayload_error _ _ _ _ _ _ _ _ h
        · simp only [Option.some.injEq, Prod.mk.injEq] at h
          rw [← h.1.2]
          rfl
    · exact readPayload_error _ _ _ _ _ _ _ _ h
    · exact readPayload_error _ _ _ _ _ _ _ _ h
    · simp only [Option.some.injEq, Prod.mk.injEq] at h
      rw [← h.1.2]
      rfl

/-- C19, as stated for every configured capacity, fails: with `InternalReadBufferSize = 0` the
capacity is 0 bytes, the first request of `Read`, for 2 bytes, exceeds it, and `Read` returns
the "Attempted to exceed buffer by 2 bytes" error without a stream read. -/
theorem C19_zero_capacity_read_exceeds :
    (TCPConnectionSocket.readExactBytes 0 4
        ⟨{ stream := [0x00, 0x00], readAnswers := fun _ => ⟨2, false⟩ }, none⟩ 2).map
        (fun r => r.1) = some (none, some (.bufferExceeded 2)) ∧
    (TCPConnectionSocket.Read 0 4
        ⟨{ stream := [0x00, 0x00], readAnswers := fun _ => ⟨2, false⟩ }, none⟩).map
        (fun r => (r.1, r.2.connection.stream, r.2.connection.reads)) =
      some ((none, some (.bufferExceeded 2)), [0x00, 0x00], 0) ∧
    (TCPConnectionSocket.Read 1 4
        ⟨{ stream := [0x00, 0x00], readAnswers := fun _ => ⟨2, false⟩ }, none⟩).map
        (fun r => r.1) = some (some [], none) := by
  refine ⟨by decide, by decide, by decide!⟩

/-- C19, amended: for every request size `n` greater than the capacity
`InternalReadBufferSize * 1024`, `readExactBytes(n)` returns the "Attempted to exceed buffer by
`n - capacity` bytes" error and no bytes, and leaves the connection state as it was (no stream
read, same leftover buffer); and when `InternalReadBufferSize ≥ 1` (a capacity of at least
1 KiB) `Read` never issues such a request: its requests are 2, the 1 to 7 bytes of a need-more
signal, and `min(capacity, remaining payload length)`, none above the capacity, so `Read` never
returns that error. -/
theorem C19_buffer_cap (C fuel size : Nat) (t : TCPConnectionSocket) (hsize : C * 1024 < size) :
    t.readExactBytes C fuel size =
      some ((none, some (.bufferExceeded ((size : Int) - ((C * 1024 : Nat) : Int)))), t) ∧
    (1 ≤ C →
      2 ≤ C * 1024 ∧
      (∀ buf k, (ParseFrame buf).err ≠ none → (ParseFrame buf).unused = some k →
        1 ≤ k.length ∧ k.length ≤ 7 ∧ k.length ≤ C * 1024) ∧
      (∀ z : Int, (if ((C : Int) * 1024) > z then z else (C : Int) * 1024).toNat ≤ C * 1024) ∧
      (∀ (t0 : TCPConnectionSocket) (fuel0 : Nat) (x : Option (List Nat)) (e : SocketError)
        (t' : TCPConnectionSocket),
        t0.Read C fuel0 = some ((x, some e), t') → e.isBufferExceeded = false)) := by
  refine ⟨?_, ?_⟩
  · have hgt : size > C * 1024 := hsize
    simp only [TCPConnectionSocket.readExactBytes, hgt, if_true]
  · intro hC
    refine ⟨by omega, ?_, ?_, ?_⟩
    · intro buf k herr hk
      obtain ⟨h1, h7⟩ := ParseFrame_signal_length buf k herr hk
      exact ⟨h1, h7, by omega⟩
    · intro z
      split_ifs <;> omega
    · intro t0 fuel0 x e t' h
      exact Read_error C fuel0 hC t0 x e t' h

/-- Witness of the amended C19: a request for 2000 bytes with a capacity of 1 KiB. -/
theorem C19_buffer_cap_witness :
    TCPConnectionSocket.readExactBytes 1 4
        ⟨{ stream := [0x00, 0x00], readAnswers := fun _ => ⟨2, false⟩ }, some [0x11]⟩ 2000 =
      some ((none, some (.bufferExceeded (((2000 : Nat) : Int) - ((1 * 1024 : Nat) : Int)))),
        ⟨{ stream := [0x00, 0x00], readAnswers := fun _ => ⟨2, false⟩ }, some [0x11]⟩) :=
  (C19_buffer_cap 1 4 2000
    ⟨{ stream := [0x00, 0x00], readAnswers := fun _ => ⟨2, false⟩ }, some [0x11]⟩
    (by decide)).1

/-! ## The frame invariant -/

/-- The first byte of the length field that `CreateFrame` keeps is not zero, unless the length
is 0. -/
theorem lengthBytes_head_ne_zero (n : Nat) (hn : n < 2 ^ 64) (h0 : n ≠ 0) :
    ((putUint64 n).drop (8 - calcByteness n)).headD 0 ≠ 0 := by
  obtain ⟨h1, h8, hlt, hge⟩ := calcByteness_range n hn
  have hge' : 256 ^ (calcByteness n - 1) ≤ n := by
    rcases hge with h | h
    · rw [h]
      simp
      omega
    · exact h
  generalize calcByteness n = k at h1 h8 hlt hge'
  interval_cases k <;>
    simp only [putUint64, Nat.shiftRight_eq_div_pow, Nat.reduceSub, List.drop_succ_cons,
      List.drop_zero, List.headD_cons] <;>
    norm_num at hlt hge' ⊢ <;> omega

theorem CreateFrame_wellFormed (ver opts n : Nat) (hn : n < 2 ^ 64) :
    (CreateFrame ver opts n).WellFormed := by
  obtain ⟨h1, h8, hlt, _⟩ := calcByteness_range n hn
  rw [CreateFrame_fields ver opts n hn]
  refine ⟨?_, h1, h8, ?_, ?_, ?_, ?_⟩
  · simp only [List.length_drop, putUint64_length]
    omega
  · intro b hb
    exact putUint64_lt n b (List.mem_of_mem_drop hb)
  · simp only
    rw [← uint64BE_replicate_zero (8 - calcByteness n),
      putUint64_drop_pad n _ h1 h8 hlt, uint64BE_putUint64 n hn]
  · intro h0
    exact lengthBytes_head_ne_zero n hn h0
  · simp only
    rw [Header.Encode_byte]
    have hne : calcByteness n ≠ 0 := by omega
    have hw : (calcByteness n + 255) % 256 % 8 = calcByteness n - 1 := by omega
    simp only [hne, if_false, hw]

/-- A frame returned by `ParseFrame` is one built by `CreateFrame` for version 0, options 0 and
a length below `2^64`. -/
theorem ParseFrame_frame (buf : List Nat) (hbytes : ∀ b ∈ buf, b < 256) (f : Frame)
    (hf : (ParseFrame buf).frame = some f) : ∃ n, n < 2 ^ 64 ∧ f = CreateFrame 0 0 n := by
  by_cases h2 : buf.length < 2
  · simp [ParseFrame, h2] at hf
  by_cases hbad : buf.getD 0 0 / 32 % 8 ≠ 0 ∨ buf.getD 0 0 / 8 % 4 ≠ 0
  · obtain ⟨e, hparse, _⟩ := ParseFrame_bad_header buf (by omega) hbad
    rw [hparse] at hf
    simp at hf
  have hv : buf.getD 0 0 / 32 % 8 = 0 := by
    by_contra h
    exact hbad (Or.inl h)
  have ho : buf.getD 0 0 / 8 % 4 = 0 := by
    by_contra h
    exact hbad (Or.inr h)
  have hdec : Header.Decode ⟨0, 0, 0⟩ (buf.getD 0 0) = ⟨0, 0, buf.getD 0 0 % 8 + 1⟩ := by
    rw [Header.Decode_fields, hv, ho]
  by_cases hw : buf.length < 1 + (buf.getD 0 0 % 8 + 1)
  · rw [ParseFrame_needMore buf _ (by omega) hdec hw] at hf
    simp at hf
  · rw [ParseFrame_ok buf _ (by omega) hdec (by omega)] at hf
    have hl : ((buf.drop 1).take (buf.getD 0 0 % 8 + 1)).length = buf.getD 0 0 % 8 + 1 := by
      rw [List.length_take, List.length_drop]
      omega
    have hmem : ∀ b ∈ (buf.drop 1).take (buf.getD 0 0 % 8 + 1), b < 256 := fun b hb =>
      hbytes b (List.mem_of_mem_drop (List.mem_of_mem_take hb))
    obtain ⟨h64, _, _⟩ := calcByteness_uint64BE _ hmem (by omega) (by omega)
    exact ⟨_, h64, (Option.some.inj hf).symm⟩

/-- C20: every `Frame` produced by `CreateFrame` for a 64-bit length (any version and options)
and every `Frame` returned by `ParseFrame` on a buffer of bytes is well formed:
`len(LengthBytes) = Header.FrameHeaderLength`, that width lies in 1..8, `LengthBytes` is the
big-endian form of `Length` with a non-zero first byte unless `Length = 0`, and `HeaderByte` is
`Header.Encode()`; and `GetFrame` on a well-formed frame does not reach its panic branch, it
returns `HeaderByte` followed by `LengthBytes`. -/
theorem C20_frames_well_formed (ver opts n : Nat) (buf : List Nat) (hn : n < 2 ^ 64)
    (hbytes : ∀ b ∈ buf, b < 256) :
    (CreateFrame ver opts n).WellFormed ∧
    (∀ f, (ParseFrame buf).frame = some f → f.WellFormed) ∧
    (∀ f : Frame, f.WellFormed → f.GetFrame = some (f.HeaderByte :: f.LengthBytes)) := by
  refine ⟨CreateFrame_wellFormed ver opts n hn, ?_, ?_⟩
  · intro f hf
    obtain ⟨m, hm, rfl⟩ := ParseFrame_frame buf hbytes f hf
    exact CreateFrame_wellFormed 0 0 m hm
  · intro f hwf
    have hlen := hwf.1
    simp only [Frame.GetFrame, Nat.min_self, hlen, ne_eq, not_true_eq_false, if_false]

/-- Witness of C20: the frame of the length 17000 with version 5 and options 2, and the frame
parsed from `02 00 01 02 AA`. -/
theorem C20_frames_well_formed_witness :
    (CreateFrame 5 2 17000).WellFormed ∧
    (∀ f, (ParseFrame [0x02, 0, 1, 2, 0xAA]).frame = some f → f.WellFormed) :=
  have h := C20_frames_well_formed 5 2 17000 [0x02, 0, 1, 2, 0xAA] (by norm_num) (by decide)
  ⟨h.1, h.2.1⟩

end Lsep
